import Mathlib

/-!
Verification development for the UniversalRAG document-segmentation and
identity-normalization pipeline.

Strings are modelled as `List Char`.  The model of Python text primitives is
ASCII-oriented: whitespace is the set accepted here by `isWS`, regex classes
`\d`, `[A-Za-z]`, `\w` are their ASCII readings, and case-insensitive matching
is ASCII case folding.  Unicode superscript digits and combining accents that
the source manipulates explicitly are modelled by explicit character tables.
-/

/-! Character classes (ASCII model of the Python regex classes). -/

def isWS (c : Char) : Bool :=
  c = ' ' || c = '\t' || c = '\n' || c = '\r'

def digitChars : List Char := ['0','1','2','3','4','5','6','7','8','9']

def isDigitA (c : Char) : Bool := c ∈ digitChars

def lowerLetters : List Char :=
  ['a','b','c','d','e','f','g','h','i','j','k','l','m',
   'n','o','p','q','r','s','t','u','v','w','x','y','z']

def upperLetters : List Char :=
  ['A','B','C','D','E','F','G','H','I','J','K','L','M',
   'N','O','P','Q','R','S','T','U','V','W','X','Y','Z']

def isLetterA (c : Char) : Bool := c ∈ lowerLetters || c ∈ upperLetters

def isAlnumA (c : Char) : Bool := isDigitA c || isLetterA c

/-- ASCII model of Python `\w` (word character): alphanumeric or underscore. -/
def isWordCh (c : Char) : Bool := isAlnumA c || c = '_'

def lowerPairs : List (Char × Char) :=
  [('A','a'),('B','b'),('C','c'),('D','d'),('E','e'),('F','f'),('G','g'),
   ('H','h'),('I','i'),('J','j'),('K','k'),('L','l'),('M','m'),('N','n'),
   ('O','o'),('P','p'),('Q','q'),('R','r'),('S','s'),('T','t'),('U','u'),
   ('V','v'),('W','w'),('X','x'),('Y','y'),('Z','z')]

/-- ASCII lower-casing of a character, as used by Python `.lower()` on ASCII. -/
def asciiLower (c : Char) : Char :=
  ((lowerPairs.find? (fun p => p.1 = c)).map (fun p => p.2)).getD c

/-- ASCII upper-casing of a character, as used by Python `.upper()` on ASCII. -/
def asciiUpper (c : Char) : Char :=
  ((lowerPairs.find? (fun p => p.2 = c)).map (fun p => p.1)).getD c

/-- Case-insensitive match of a character against a lower-case letter:
model of a single letter under Python `re.IGNORECASE`. -/
def ciIs (c target : Char) : Bool := asciiLower c = target

/-! Python string primitives used by the sources:
`str.strip`, `re.sub(r"\s+", " ", s)`, `str.splitlines`. -/

def pyStripL (s : List Char) : List Char := s.dropWhile isWS

def pyStripR (s : List Char) : List Char := (s.reverse.dropWhile isWS).reverse

/-- Model of Python `str.strip()` (whitespace per `isWS`). -/
def pyStrip (s : List Char) : List Char := pyStripR (pyStripL s)

/-- Model of `re.sub(r"\s+", " ", s)`: each maximal whitespace run becomes
a single space. -/
def subWS : List Char → List Char
  | [] => []
  | [c] => if isWS c then [' '] else [c]
  | c :: d :: t =>
    if isWS c then
      (if isWS d then subWS (d :: t) else ' ' :: subWS (d :: t))
    else c :: subWS (d :: t)

/-- Model of Python `str.splitlines()` on `\n`, `\r\n` and `\r`
(the line terminators occurring in this pipeline's text). -/
def pySplitlines : List Char → List (List Char) :=
  go []
where
  go (cur : List Char) : List Char → List (List Char)
    | [] => if cur = [] then [] else [cur.reverse]
    | '\r' :: '\n' :: t => cur.reverse :: go [] t
    | '\n' :: t => cur.reverse :: go [] t
    | '\r' :: t => cur.reverse :: go [] t
    | c :: t => go (c :: cur) t

/-- Join a list of lines with newline characters, Python `"\n".join(...)`. -/
def joinNL : List (List Char) → List Char
  | [] => []
  | [l] => l
  | l :: l2 :: t => l ++ '\n' :: joinNL (l2 :: t)

/-! Embedding of src/neo4j_fix_superscripts.py. -/

/-- Translation table `_SUP_MAP`: Unicode superscript digits to ASCII digits. -/
def supTr (c : Char) : Char :=
  if c = '⁰' then '0' else if c = '¹' then '1' else
  if c = '²' then '2' else if c = '³' then '3' else
  if c = '⁴' then '4' else if c = '⁵' then '5' else
  if c = '⁶' then '6' else if c = '⁷' then '7' else
  if c = '⁸' then '8' else if c = '⁹' then '9' else c

/-- The whitespace-normalized, superscript-translated form computed at the top
of `normalize_article_number`: `re.sub(r"\s+"," ", raw.strip()).translate(_SUP_MAP)`. -/
def pyCanon (raw : List Char) : List Char := (subWS (pyStrip raw)).map supTr

def romanChars : List Char := ['I','V','X','L','C','D','M','i','v','x','l','c','d','m']

def isRomanChar (c : Char) : Bool := c ∈ romanChars

def countLead (c : Char) : List Char → Nat
  | [] => 0
  | d :: t => if d = c then countLead c t + 1 else 0

/-- Hundreds group of `_ROMAN_RE`: `(CM|CD|D?C{0,3})` (first alternative wins;
for this grammar the greedy left-to-right parse agrees with the regex). -/
def romanHundreds : List Char → Option (List Char)
  | 'C' :: 'M' :: r => some r
  | 'C' :: 'D' :: r => some r
  | s =>
    let s1 := if s.head? = some 'D' then s.tail else s
    let k := countLead 'C' s1
    if k > 3 then none else some (s1.drop k)

/-- Tens group of `_ROMAN_RE`: `(XC|XL|L?X{0,3})`. -/
def romanTens : List Char → Option (List Char)
  | 'X' :: 'C' :: r => some r
  | 'X' :: 'L' :: r => some r
  | s =>
    let s1 := if s.head? = some 'L' then s.tail else s
    let k := countLead 'X' s1
    if k > 3 then none else some (s1.drop k)

/-- Units group of `_ROMAN_RE`: `(IX|IV|V?I{0,3})`. -/
def romanUnits : List Char → Option (List Char)
  | 'I' :: 'X' :: r => some r
  | 'I' :: 'V' :: r => some r
  | s =>
    let s1 := if s.head? = some 'V' then s.tail else s
    let k := countLead 'I' s1
    if k > 3 then none else some (s1.drop k)

/-- Body of `_ROMAN_RE` after the lookahead:
`M{0,4}(CM|CD|D?C{0,3})(XC|XL|L?X{0,3})(IX|IV|V?I{0,3})$` on an
upper-cased string. -/
def romanGrammar (s : List Char) : Bool :=
  let k := countLead 'M' s
  if k > 4 then false else
  match romanHundreds (s.drop k) with
  | none => false
  | some s2 =>
    match romanTens s2 with
    | none => false
    | some s3 =>
      match romanUnits s3 with
      | none => false
      | some s4 => s4 = []

/-- Embedding of `_is_roman`: the `(?i)` lookahead `[IVXLCDM]{1,8}$` plus the
subtractive-notation grammar, after ASCII upper-casing. -/
def is_roman (s : List Char) : Bool :=
  let u := s.map asciiUpper
  u ≠ [] && u.length ≤ 8 && u.all (fun c => c ∈ (['I','V','X','L','C','D','M'] : List Char))
    && romanGrammar u

/-- Match of `(?is)^\s*(art\.?)\s*(.*)$`: returns the `rest` group when the
string begins (after whitespace) with case-insensitive `art` and optional dot.
The leading and separating `\s*` are forced to consume their full runs because
the following literal characters are not whitespace. -/
def matchArt (s : List Char) : Option (List Char) :=
  match s.dropWhile isWS with
  | a :: r :: t :: rest =>
    if ciIs a 'a' && ciIs r 'r' && ciIs t 't' then
      match rest with
      | '.' :: rest2 => some (rest2.dropWhile isWS)
      | _ => some (rest.dropWhile isWS)
    else none
  | _ => none

/-- Match of `^(?P<num>\d{1,3})(?P<letter>[A-Za-z])?(?P<tail>\d{1,tail_max})?$`
on the space-stripped remainder.  Because digits and letters are disjoint, the
Python backtracking regex matches exactly when the string decomposes as below,
and the groups are forced as computed:
a digit run, an optional single letter, an optional digit run (the all-digit
string of length n > 3 splits as 3 + (n-3) with n - 3 ≤ tail_max). -/
def matchArabic (tail_max : Nat) (s : List Char) :
    Option (List Char × Option Char × Option (List Char)) :=
  let d1 := s.takeWhile isDigitA
  let r1 := s.dropWhile isDigitA
  if d1 = [] then none
  else
    match r1 with
    | [] =>
      if d1.length ≤ 3 then some (d1, none, none)
      else if d1.length ≤ 3 + tail_max then some (d1.take 3, none, some (d1.drop 3))
      else none
    | c :: r2 =>
      if isLetterA c then
        let d2 := r2.takeWhile isDigitA
        let r3 := r2.dropWhile isDigitA
        if r3 = [] && d1.length ≤ 3 && (d2 = [] || d2.length ≤ tail_max) then
          some (d1, some c, if d2 = [] then none else some d2)
        else none
      else none

/-- Match of `^(?P<roman>[IVXLCDMivxlcdm]{1,8})(?P<tail>\d{1,tail_max})?$`.
The roman class and the digit class are disjoint, so the roman group must
consume its entire run. -/
def matchRomanTok (tail_max : Nat) (s : List Char) :
    Option (List Char × Option (List Char)) :=
  let r := s.takeWhile isRomanChar
  let rest := s.dropWhile isRomanChar
  if r = [] || r.length > 8 then none
  else
    let d := rest.takeWhile isDigitA
    let rest2 := rest.dropWhile isDigitA
    if rest2 = [] && (d = [] || d.length ≤ tail_max) then
      some (r, if d = [] then none else some d)
    else none

/-- Model of `re.findall(r"[A-Za-z0-9]+", s)`: maximal ASCII-alphanumeric runs. -/
def alnumToks : List Char → List (List Char) :=
  go []
where
  go (cur : List Char) : List Char → List (List Char)
    | [] => if cur = [] then [] else [cur.reverse]
    | c :: t =>
      if isAlnumA c then go (c :: cur) t
      else if cur = [] then go [] t else cur.reverse :: go [] t

def digitChar (n : Nat) : Char :=
  if n = 0 then '0' else if n = 1 then '1' else if n = 2 then '2' else
  if n = 3 then '3' else if n = 4 then '4' else if n = 5 then '5' else
  if n = 6 then '6' else if n = 7 then '7' else if n = 8 then '8' else
  if n = 9 then '9' else '*'

def digitVal (c : Char) : Nat :=
  if c = '0' then 0 else if c = '1' then 1 else if c = '2' then 2 else
  if c = '3' then 3 else if c = '4' then 4 else if c = '5' then 5 else
  if c = '6' then 6 else if c = '7' then 7 else if c = '8' then 8 else 9

/-- Numeric value of a digit string, Python `int(s)` on decimal digits. -/
def digitsVal (l : List Char) : Nat := l.foldl (fun a c => a * 10 + digitVal c) 0

/-- Fuelled decimal rendering (fuel `n + 1` always suffices). -/
def natDigitsAux : Nat → Nat → List Char
  | 0, _ => []
  | f + 1, n =>
    if n < 10 then [digitChar n]
    else natDigitsAux f (n / 10) ++ [digitChar (n % 10)]

/-- Decimal rendering of a natural number, Python `str(int(...))`:
no leading zeros, `"0"` for zero. -/
def natDigits (n : Nat) : List Char := natDigitsAux (n + 1) n

/-- Canonical article prefix produced by `_tidy_prefix`. -/
def tidyPfx : List Char := ['A', 'r', 't', '.']

/-- A lone digit token of 1 to `tail_max` digits, usable as a footnote tail:
the checks `len(t) <= tail_max and t.isdigit()`-style guards of step 3. -/
def tokTail (tail_max : Nat) (rest : List (List Char)) : Option (List Char) :=
  match rest with
  | [] => none
  | t1 :: _ =>
    if 1 ≤ t1.length && t1.length ≤ tail_max && t1.all isDigitA then some t1
    else none

/-- Letter and tail tokens following the leading digit token in step 3 of
`normalize_article_number` (the `letter`/`tail` locals of the Python code). -/
def tokLetterTail (tail_max : Nat) (rest : List (List Char)) :
    List Char × Option (List Char) :=
  match rest with
  | [] => ([], none)
  | t1 :: rest2 =>
    if t1.length = 1 && t1.all isLetterA then
      (t1.map asciiLower, tokTail tail_max rest2)
    else if 1 ≤ t1.length && t1.length ≤ tail_max && t1.all isDigitA then
      ([], some t1)
    else ([], none)

/-- Token-fallback step 3 of `normalize_article_number`
(separated tokens such as `"70 a 12"` or `"iv 2"`), returning the result
record or `none` when neither token shape applies. -/
def tokenFallback (tail_max : Nat) (toks : List (List Char)) :
    Option (List Char × Option (List Char)) :=
  match toks with
  | [] => none
  | t0 :: rest =>
    if 1 ≤ t0.length && t0.length ≤ 3 && t0.all isDigitA then
      some (tidyPfx ++ ' ' ::
          (natDigits (digitsVal t0) ++ (tokLetterTail tail_max rest).1),
        (tokLetterTail tail_max rest).2)
    else if is_roman t0 then
      some (tidyPfx ++ ' ' :: t0.map asciiUpper, tokTail tail_max rest)
    else none

/-- Embedding of `normalize_article_number` from src/neo4j_fix_superscripts.py
(lines 50-122).  Requires `tail_max ≥ 1` to be meaningful: the Python regex
`\d{1,tail_max}` raises `re.error` for smaller bounds. -/
def normalize_article_number (raw : List Char) (tail_max : Nat) :
    List Char × Option (List Char) :=
  if raw = [] then ([], none)
  else
    let s := pyCanon raw
    match matchArt s with
    | none => (s, none)
    | some rest =>
      let rest_compact := rest.filter (fun c => c ≠ ' ')
      match matchArabic tail_max rest_compact with
      | some (d1, letter, tail) =>
        let num := natDigits (digitsVal d1)
        let l := match letter with
          | some c => [asciiLower c]
          | none => []
        (tidyPfx ++ ' ' :: (num ++ l), tail)
      | none =>
        let fallb :=
          match tokenFallback tail_max (alnumToks (rest.map supTr)) with
          | some res => res
          | none => (tidyPfx ++ ' ' :: pyStrip rest, none)
        match matchRomanTok tail_max rest_compact with
        | some (r, tail) =>
          if is_roman r then (tidyPfx ++ ' ' :: r.map asciiUpper, tail)
          else fallb
        | none => fallb

/-! Embedding of src/pdf2articles.py. -/

/-- Python slice `t[s:e]`. -/
def extract (t : List Char) (s e : Nat) : List Char := (t.drop s).take (e - s)

/-- `^` under `re.MULTILINE`: start of text or just after a newline. -/
def lineStart (t : List Char) (p : Nat) : Bool :=
  p = 0 || t.get? (p - 1) = some '\n'

/-- `$` under `re.MULTILINE`: end of text or just before a newline. -/
def dollarAt (t : List Char) (p : Nat) : Bool :=
  p = t.length || t.get? p = some '\n'

def wsRunFrom (t : List Char) (p : Nat) : Nat := ((t.drop p).takeWhile isWS).length

/-- Largest k' in [j, j+k] at which `$` matches: the backtracking of the
greedy trailing `\s*$`. -/
def lastDollar (t : List Char) (j : Nat) : Nat → Option Nat
  | 0 => if dollarAt t j then some j else none
  | k + 1 => if dollarAt t (j + k + 1) then some (j + k + 1) else lastDollar t j k

/-- Tail of the heading pattern after the digit run ending at j1: the optional
single `[a-zA-Z]`, then the greedily backtracked `\s*$`; returns the match end
and the captured group `digits ++ optional letter`. -/
def headingTail (t : List Char) (j1 : Nat) (ds : List Char) : Option (Nat × List Char) :=
  match t.get? j1 with
  | some c =>
    if isLetterA c then
      match lastDollar t (j1 + 1) (wsRunFrom t (j1 + 1)) with
      | some e => some (e, ds ++ [c])
      | none => none
    else
      match lastDollar t j1 (wsRunFrom t j1) with
      | some e => some (e, ds)
      | none => none
  | none =>
    match lastDollar t j1 (wsRunFrom t j1) with
    | some e => some (e, ds)
    | none => none

/-- The `\d+` of the heading pattern starting at j0 (one or more digits, the
full run), followed by the tail. -/
def headingDigits (t : List Char) (j0 : Nat) : Option (Nat × List Char) :=
  match (t.drop j0).takeWhile isDigitA with
  | [] => none
  | d :: ds => headingTail t (j0 + (d :: ds).length) (d :: ds)

/-- Match of `ART_HEADING_RE = ^\s*Art\.\s*(\d+[a-zA-Z]?)\s*$`
(IGNORECASE, MULTILINE) at position p; returns (match end, captured group).
Both interior `\s*` runs are forced because the following literal cannot be
whitespace; the trailing `\s*$` backtracks from its greedy maximum. -/
def matchHeadingAt (t : List Char) (p : Nat) : Option (Nat × List Char) :=
  if lineStart t p then
    match t.drop (p + wsRunFrom t p) with
    | a :: r :: u :: rest1 =>
      if ciIs a 'a' && ciIs r 'r' && ciIs u 't' then
        match rest1 with
        | '.' :: _ => headingDigits t (p + wsRunFrom t p + 4 + wsRunFrom t (p + wsRunFrom t p + 4))
        | _ => none
      else none
    | _ => none
  else none

/-- First heading match at a position ≥ p (fuel covers positions p..length). -/
def findHeadingAux (t : List Char) : Nat → Nat → Option (Nat × Nat × List Char)
  | 0, _ => none
  | f + 1, p =>
    match matchHeadingAt t p with
    | some (e, g) => some (p, e, g)
    | none => findHeadingAux t f (p + 1)

def findHeadingFrom (t : List Char) (p : Nat) : Option (Nat × Nat × List Char) :=
  findHeadingAux t (t.length + 1 - p) p

/-- The non-overlapping scan of `re.finditer(ART_HEADING_RE, t)`: each step
resumes at the previous match end.  Every match consumes at least five
characters, so fuel `t.length + 1` is never exhausted. -/
def headingMatchesAux (t : List Char) : Nat → Nat → List (Nat × Nat × List Char)
  | 0, _ => []
  | f + 1, pos =>
    match findHeadingFrom t pos with
    | none => []
    | some (s, e, g) => (s, e, g) :: headingMatchesAux t f e

def headingMatches (t : List Char) : List (Nat × Nat × List Char) :=
  headingMatchesAux t (t.length + 1) 0

/-- The zip of `find_articles_segments`: span of match i ends at the start of
match i+1 (end of text for the last). -/
def segsOf (len : Nat) : List (Nat × Nat × List Char) → List (List Char × Nat × Nat)
  | [] => []
  | [(s, _, g)] => [(g, s, len)]
  | (s, _, g) :: m2 :: rest => (g, s, m2.1) :: segsOf len (m2 :: rest)

/-- Embedding of `find_articles_segments` (src/pdf2articles.py lines 151-164):
list of (article_number group, start index, exclusive end index). -/
def find_articles_segments (t : List Char) : List (List Char × Nat × Nat) :=
  segsOf t.length (headingMatches t)

/-- Loop body of `pos_to_page` (src/pdf2articles.py lines 171-178): `p`
is updated to each index whose offset is ≤ pos, and the loop breaks at the
first larger offset. -/
def posPageAux (pos : Nat) : List Nat → Nat → Nat → Nat
  | [], _, p => p
  | off :: t, i, p => if off ≤ pos then posPageAux pos t (i + 1) i else p

def pos_to_page (page_offsets : List Nat) (pos : Nat) : Nat :=
  posPageAux pos page_offsets 0 0 + 1

/-- Embedding of `span_to_page_range` (src/pdf2articles.py lines 166-181). -/
def span_to_page_range (start_idx end_idx : Nat) (page_offsets : List Nat) :
    Nat × Nat :=
  (pos_to_page page_offsets start_idx,
   pos_to_page page_offsets (if end_idx > 0 then end_idx - 1 else 0))

/-- Word boundary `\b` at p when the following character is a word character:
holds when p is at the start or the previous character is not a word char. -/
def bLeft (t : List Char) (p : Nat) : Bool :=
  p = 0 ||
    (match t.get? (p - 1) with
     | some c => !(isWordCh c)
     | none => true)

/-- Word boundary `\b` at q when the preceding character is a word character:
holds when q is at the end or the character at q is not a word char. -/
def bRight (t : List Char) (q : Nat) : Bool :=
  match t.get? q with
  | some c => !(isWordCh c)
  | none => true

/-- Match of `DOC_ID_RE = \b\d{1,3}\.\d{1,3}\.\d{1,3}\b` at position p.
Each digit group is forced to be a complete maximal run of 1..3 digits (a
longer run leaves a digit where `\.` or `\b` is required). -/
def matchDocIdAt (t : List Char) (p : Nat) : Option (List Char) :=
  if bLeft t p then
    let d1 := (t.drop p).takeWhile isDigitA
    if 1 ≤ d1.length && d1.length ≤ 3 && t.get? (p + d1.length) = some '.' then
      let p2 := p + d1.length + 1
      let d2 := (t.drop p2).takeWhile isDigitA
      if 1 ≤ d2.length && d2.length ≤ 3 && t.get? (p2 + d2.length) = some '.' then
        let p3 := p2 + d2.length + 1
        let d3 := (t.drop p3).takeWhile isDigitA
        if 1 ≤ d3.length && d3.length ≤ 3 && bRight t (p3 + d3.length) then
          some (d1 ++ '.' :: (d2 ++ '.' :: d3))
        else none
      else none
    else none
  else none

def searchDocIdAux (t : List Char) : Nat → Nat → Option (List Char)
  | 0, _ => none
  | f + 1, p =>
    match matchDocIdAt t p with
    | some m => some m
    | none => searchDocIdAux t f (p + 1)

/-- Embedding of `guess_doc_id_from_first_page` (src/pdf2articles.py
lines 32-34): first (leftmost) match of `DOC_ID_RE`, or none. -/
def guess_doc_id_from_first_page (t : List Char) : Option (List Char) :=
  searchDocIdAux t (t.length + 1) 0

/-- The doc_id assignment of `process_pdf` (src/pdf2articles.py line 192):
`guess_doc_id_from_first_page(first_page_text) or pdf_path.stem`
(Python `or` substitutes the stem for a falsy result). -/
def process_pdf_doc_id (first_page_text stem : List Char) : List Char :=
  match guess_doc_id_from_first_page first_page_text with
  | some m => if m = [] then stem else m
  | none => stem

/-! Title detection.  `_norm` is `unicodedata.normalize("NFKD", s)` followed by
removal of combining marks; it is modelled on the characters this pipeline
manipulates: a table of common French precomposed letters decomposes into the
base letter plus a combining mark, combining marks are removed, and every
other character is untouched. -/

def nfkdChar (c : Char) : List Char :=
  if c = 'é' then ['e', '́'] else if c = 'è' then ['e', '̀'] else
  if c = 'ê' then ['e', '̂'] else if c = 'à' then ['a', '̀'] else
  if c = 'ç' then ['c', '̧'] else if c = 'ô' then ['o', '̂'] else
  if c = 'î' then ['i', '̂'] else if c = 'û' then ['u', '̂'] else [c]

def isCombiningMark (c : Char) : Bool :=
  c = '̀' || c = '́' || c = '̂' || c = '̧'

/-- Model of `_norm` from src/pdf2articles.py lines 99-100. -/
def pyNorm (s : List Char) : List Char :=
  ((s.map nfkdChar).flatten).filter (fun c => !(isCombiningMark c))

/-- Tail of `texte\s+original` after the literal `texte` ending at p5:
the `\s+` (at least one char, the full run) then `original`, returning the
match end. -/
def texteOriginalTail (t : List Char) (p5 : Nat) (rest : List Char) : Option Nat :=
  if rest.takeWhile isWS = [] then none
  else
    match rest.dropWhile isWS with
    | o1 :: o2 :: o3 :: o4 :: o5 :: o6 :: o7 :: o8 :: _ =>
      if ciIs o1 'o' && ciIs o2 'r' && ciIs o3 'i' && ciIs o4 'g' &&
         ciIs o5 'i' && ciIs o6 'n' && ciIs o7 'a' && ciIs o8 'l' then
        some (p5 + (rest.takeWhile isWS).length + 8)
      else none
    | _ => none

/-- Match of `texte\s+original` (IGNORECASE) at position p, returning the
match end.  The `\s+` is forced to consume its full run. -/
def matchTexteOriginalAt (t : List Char) (p : Nat) : Option Nat :=
  match t.drop p with
  | c1 :: c2 :: c3 :: c4 :: c5 :: rest =>
    if ciIs c1 't' && ciIs c2 'e' && ciIs c3 'x' && ciIs c4 't' && ciIs c5 'e' then
      texteOriginalTail t (p + 5) rest
    else none
  | _ => none

def searchTexteOriginalAux (t : List Char) : Nat → Nat → Option Nat
  | 0, _ => none
  | f + 1, p =>
    match matchTexteOriginalAt t p with
    | some e => some e
    | none => searchTexteOriginalAux t f (p + 1)

/-- First match of the start-marker pattern, returning its end position. -/
def searchTexteOriginal (t : List Char) : Option Nat :=
  searchTexteOriginalAux t (t.length + 1) 0

/-- Match of `\bconclu(e)?\b` (IGNORECASE) at position q.  The optional `e` is
taken greedily; when taking it fails the word boundary, the variant without it
also fails (the `e` itself is a word character), so no further backtracking. -/
def matchConcluAt (t : List Char) (q : Nat) : Bool :=
  bLeft t q &&
  (match t.drop q with
   | c1 :: c2 :: c3 :: c4 :: c5 :: c6 :: rest =>
     ciIs c1 'c' && ciIs c2 'o' && ciIs c3 'n' && ciIs c4 'c' &&
     ciIs c5 'l' && ciIs c6 'u' &&
     (match rest with
      | e :: _ => if ciIs e 'e' then bRight t (q + 7) else bRight t (q + 6)
      | [] => true)
   | _ => false)

def searchConcluAux (t : List Char) : Nat → Nat → Option Nat
  | 0, _ => none
  | f + 1, q => if matchConcluAt t q then some q else searchConcluAux t f (q + 1)

/-- First match of the end-marker pattern at a position ≥ s0, returning its
start position. -/
def searchConcluFrom (t : List Char) (s0 : Nat) : Option Nat :=
  searchConcluAux t (t.length + 1 - s0) s0

/-- Model of `re.sub(r"\s*-\s+", "-", s)`: left-to-right, non-overlapping;
at a match (whitespace run, hyphen, nonempty whitespace run) everything is
replaced by a single hyphen and scanning resumes after the match. -/
def hyphenSubAux : Nat → List Char → List Char
  | 0, s => s
  | f + 1, s =>
    match s with
    | [] => []
    | c :: t =>
      match (c :: t).dropWhile isWS with
      | '-' :: r2 =>
        if r2.takeWhile isWS = [] then c :: hyphenSubAux f t
        else '-' :: hyphenSubAux f (r2.dropWhile isWS)
      | _ => c :: hyphenSubAux f t

def hyphenSub (s : List Char) : List Char := hyphenSubAux s.length s

/-- The cleanup applied to an extracted title segment (src/pdf2articles.py
lines 89-93 and 117-120): keep nonempty stripped lines joined by newline,
collapse whitespace and strip, remove soft hyphens, rejoin hyphen breaks. -/
def titleClean (seg : List Char) : List Char :=
  let s1 := joinNL (((pySplitlines seg).map pyStrip).filter (fun l => l ≠ []))
  let s2 := pyStrip (subWS s1)
  let s3 := s2.filter (fun c => c ≠ '­')
  hyphenSub s3

/-- Match of `DOC_ID_LINE = ^\s*\d{1,3}\.\d{1,3}\.\d{1,3}\s*$` via `re.match`. -/
def isDocIdLine (t : List Char) : Bool :=
  let s := t.dropWhile isWS
  let d1 := s.takeWhile isDigitA
  let r1 := s.dropWhile isDigitA
  1 ≤ d1.length && d1.length ≤ 3 &&
  (match r1 with
   | '.' :: r2 =>
     let d2 := r2.takeWhile isDigitA
     let r3 := r2.dropWhile isDigitA
     1 ≤ d2.length && d2.length ≤ 3 &&
     (match r3 with
      | '.' :: r4 =>
        let d3 := r4.takeWhile isDigitA
        let r5 := r4.dropWhile isDigitA
        1 ≤ d3.length && d3.length ≤ 3 && r5.dropWhile isWS = []
      | _ => false)
   | _ => false)

/-- Python `t.lower().startswith("texte original")` on ASCII. -/
def startsWithTexteOriginal (t : List Char) : Bool :=
  match t with
  | c1 :: c2 :: c3 :: c4 :: c5 :: c6 :: c7 :: c8 :: c9 :: c10 :: c11 :: c12 :: c13 :: c14 :: _ =>
    ciIs c1 't' && ciIs c2 'e' && ciIs c3 'x' && ciIs c4 't' && ciIs c5 'e' &&
    c6 = ' ' && ciIs c7 'o' && ciIs c8 'r' && ciIs c9 'i' && ciIs c10 'g' &&
    ciIs c11 'i' && ciIs c12 'n' && ciIs c13 'a' && ciIs c14 'l'
  | _ => false

/-- The `seg` computed by `_title_between_markers_fallback`
(src/pdf2articles.py lines 106-115) before cleaning: markers are searched in
the normalized text and the slice is taken from the raw text. -/
def fallbackSeg (raw : List Char) : List Char :=
  let norm := pyNorm raw
  match searchTexteOriginal norm with
  | some e =>
    (match searchConcluFrom norm e with
     | some cs => if e < cs then extract raw e cs else []
     | none => [])
  | none =>
    (match searchConcluFrom norm 0 with
     | some cs => raw.take cs
     | none => [])

/-- Embedding of `_title_between_markers_fallback` (src/pdf2articles.py
lines 97-129). -/
def title_between_markers_fallback (raw : List Char) : List Char :=
  let seg := titleClean (fallbackSeg raw)
  if seg ≠ [] then seg
  else
    match ((pySplitlines raw).map pyStrip).find?
        (fun t => t ≠ [] && !(isDocIdLine t) && !(startsWithTexteOriginal t)) with
    | some t => t
    | none => "Titre inconnu".toList

/-! Page model for `guess_doc_title_from_first_page`: the PyMuPDF page is a
list of blocks of lines of spans; of each span only the text and the two
vertical bbox coordinates used by the source are modelled.  Coordinates are
integers and the midpoint test `0.5*(y0+y1) <= page_h/2.0` is carried with
the division by two cleared on both sides: the kept quantity is the doubled
midpoint `y0 + y1`, compared against the full page height, which defines the
same filter and the same sort order as the source's halves. -/

structure PySpan where
  text : List Char
  y0 : Int
  y1 : Int

structure PyLine where
  spans : List PySpan

structure PyBlock where
  lines : List PyLine

structure PyPage where
  blocks : List PyBlock
  height : Int
  rawText : List Char

/-- The `lines` list built in src/pdf2articles.py lines 52-64: per line with
spans, the (doubled) midpoint of the first span's top and the last span's
bottom, kept when it lies in the upper half and the joined stripped text is
nonempty. -/
def pageLines (pg : PyPage) : List (Int × List Char) :=
  (pg.blocks.map (fun b =>
    b.lines.filterMap (fun l =>
      match l.spans with
      | [] => none
      | s0 :: rest =>
        let ymid2 := s0.y0 + ((s0 :: rest).getLastD s0).y1
        if ymid2 ≤ pg.height then
          let txt := pyStrip (((s0 :: rest).map PySpan.text).flatten)
          if txt = [] then none else some (ymid2, txt)
        else none))).flatten

/-- Stable insertion by vertical midpoint: Python `list.sort` is stable. -/
def insertByY (x : Int × List Char) : List (Int × List Char) → List (Int × List Char)
  | [] => [x]
  | y :: t => if y.1 ≤ x.1 then y :: insertByY x t else x :: y :: t

def sortByY (l : List (Int × List Char)) : List (Int × List Char) :=
  l.foldl (fun acc x => insertByY x acc) []

/-- The `top_text` of src/pdf2articles.py line 70. -/
def topText (pg : PyPage) : List Char :=
  joinNL ((sortByY (pageLines pg)).map Prod.snd)

/-- Embedding of `guess_doc_title_from_first_page` (src/pdf2articles.py
lines 36-94). -/
def guess_doc_title_from_first_page (pg : PyPage) : List Char :=
  if pageLines pg = [] then title_between_markers_fallback pg.rawText
  else
    let top_text := topText pg
    let norm := pyNorm top_text
    let seg :=
      match searchTexteOriginal norm with
      | some e =>
        (match searchConcluFrom norm e with
         | some cs => if e < cs then some (extract top_text e cs) else none
         | none => none)
      | none =>
        (match searchConcluFrom norm 0 with
         | some cs => some (top_text.take cs)
         | none => none)
    match seg with
    | none => title_between_markers_fallback pg.rawText
    | some sg =>
      let sgc := titleClean sg
      if sgc ≠ [] then sgc else title_between_markers_fallback pg.rawText

/-! Embedding of src/neo4j_fix_docids_titles.py: the doc_id fallback choice
(main, lines 225-229) and the title write of the per-file update
(main lines 231-232 with CYPHER_UPDATE_GROUP lines 170-172). -/

/-- Python truthiness of an optional string. -/
def pyTruthy (o : Option (List Char)) : Bool :=
  match o with
  | some s => s ≠ []
  | none => false

/-- The `old_ids` list comprehension of line 228: doc_ids of the file's
articles in order, keeping only truthy values. -/
def oldIds (arts : List (Option (List Char))) : List (List Char) :=
  arts.filterMap (fun a =>
    match a with
    | some s => if s = [] then none else some s
    | none => none)

/-- Lines 225-229: the new doc_id for a file group when the probed id is
missing — `old_ids[0] if old_ids else Path(pdf_path).stem`. -/
def chooseNewDocId (probeId : Option (List Char)) (arts : List (Option (List Char)))
    (stem : List Char) : List Char :=
  if pyTruthy probeId then probeId.getD [] else
    match oldIds arts with
    | x :: _ => x
    | [] => stem

/-- Cypher `coalesce` on two nullable values. -/
def coalesceOpt (a b : Option (List Char)) : Option (List Char) :=
  match a with
  | some x => some x
  | none => b

/-- CYPHER_UPDATE_GROUP lines 170-172: the title stored on the target
Document.  `nodeExists` selects ON MATCH (`coalesce($docTitle, d2.title)`)
versus ON CREATE (`$docTitle`). -/
def mergeDocumentTitle (docTitle : Option (List Char)) (nodeExists : Bool)
    (existingTitle : Option (List Char)) : Option (List Char) :=
  if nodeExists then coalesceOpt docTitle existingTitle else docTitle

/-- main lines 219-232 composed with the merge: the title stored for a file
group after one reconciliation run, from the probed (doc_id, title) and the
target Document's prior state; `none` when the file is skipped. -/
def reconcileStoredTitle (probeId probeTitle : Option (List Char))
    (nodeExists : Bool) (existingTitle : Option (List Char)) :
    Option (Option (List Char)) :=
  if !(pyTruthy probeId) && !(pyTruthy probeTitle) then none
  else
    let docTitle :=
      if pyTruthy probeTitle then probeTitle.getD [] else "Titre inconnu".toList
    some (mergeDocumentTitle (some docTitle) nodeExists existingTitle)

/-! Spec-side definition used to compare C8's claim against the code: the
claim describes the dotted numeral as "one to three groups of 1-3 digits
joined by periods", whereas `DOC_ID_RE` requires exactly three groups. -/

/-- Modelled from the spec: a dotted numeral of one to three groups of 1-3
digits joined by periods. -/
def specDottedNumeral (s : List Char) : Bool :=
  let groups := s.splitOn '.'
  1 ≤ groups.length && groups.length ≤ 3 &&
    groups.all (fun g => 1 ≤ g.length && g.length ≤ 3 && g.all isDigitA)

/-- Modelled from the spec: the text contains a substring that is such a
dotted numeral. -/
def specHasDottedNumeral (t : List Char) : Bool :=
  (List.range (t.length + 1)).any (fun i =>
    (List.range (t.length + 1)).any (fun j => specDottedNumeral (extract t i j)))

/-! Structural predicates on whitespace, used to reason about the
normalizer's canonical forms. -/

/-- The first character, if any, is not whitespace. -/
def noLeadWS (s : List Char) : Prop := ∀ c, s.head? = some c → isWS c = false

/-- The last character, if any, is not whitespace. -/
def noTrailWS (s : List Char) : Prop := ∀ c, s.getLast? = some c → isWS c = false

/-- Every whitespace character is a plain space, and no two whitespace
characters are adjacent. -/
def singleWS (s : List Char) : Prop :=
  (∀ c ∈ s, isWS c = true → c = ' ') ∧
    List.Chain' (fun a b => ¬(isWS a = true ∧ isWS b = true)) s

/-! Concrete pages used to instantiate the title-detection theorems. -/

/-- A page whose upper half contains both markers around a title line. -/
def pgW : PyPage :=
  { blocks := [{ lines := [
      { spans := [{ text := "Texte original".toList, y0 := 10, y1 := 12 }] },
      { spans := [{ text := "Mon Titre".toList, y0 := 20, y1 := 22 }] },
      { spans := [{ text := "Conclu le 3 mai".toList, y0 := 30, y1 := 32 }] }] }],
    height := 100, rawText := [] }

/-- A page whose between-marker text is a single space (cleans to empty). -/
def pgA : PyPage :=
  { blocks := [{ lines := [
      { spans := [{ text := "Texte original Conclu x".toList, y0 := 10, y1 := 12 }] }] }],
    height := 100, rawText := [] }

/-- A page whose upper half starts with a combining acute accent (U+0301),
so NFKD-based marker positions shift against the raw slice. -/
def pgB : PyPage :=
  { blocks := [{ lines := [
      { spans := [{ text := ['e', Char.ofNat 0x301], y0 := 10, y1 := 12 }] },
      { spans := [{ text := "Texte original".toList, y0 := 20, y1 := 22 }] },
      { spans := [{ text := "X".toList, y0 := 30, y1 := 32 }] },
      { spans := [{ text := "Conclu le 3".toList, y0 := 40, y1 := 42 }] }] }],
    height := 100, rawText := [] }

/-- The number of page start-offsets not exceeding a position: the count of
loop iterations whose `start <= pos` in `pos_to_page`. -/
def pagesLE (offs : List Nat) (pos : Nat) : Nat :=
  (offs.takeWhile (fun off => off ≤ pos)).length

/-! Theorems. -/

/-- C2: evaluation of `normalize_article_number` with `tail_max = 2` at the
five round-trip examples of the spec (which repeat the module docstring of
src/neo4j_fix_superscripts.py).  The last four agree with the claim; the
first does not: the greedy `\d{1,3}` group takes three digits, so "Art.7064"
yields number "Art. 706" with footnote "4", not number "Art. 70" with
footnote "64" as the documentation states. -/
theorem C2_code_eval :
    normalize_article_number "Art.7064".toList 2 =
      ("Art. 706".toList, some "4".toList) ∧
    normalize_article_number "Art. 70a³".toList 2 =
      ("Art. 70a".toList, some "3".toList) ∧
    normalize_article_number "Art. IV²".toList 2 =
      ("Art. IV".toList, some "2".toList) ∧
    normalize_article_number "Art. 70a".toList 2 = ("Art. 70a".toList, none) ∧
    normalize_article_number "art  70A 12".toList 2 =
      ("Art. 70a".toList, some "12".toList) ∧
    (("Art. 706".toList, some "4".toList) :
        List Char × Option (List Char)) ≠
      ("Art. 70".toList, some "64".toList) :=
  ⟨by decide, by decide, by decide, by decide, by decide, by decide⟩

/-- C1 counterexample: idempotence of the full (number, footnote) pair fails.
At x = "Art.7064" with tail_max 2 the first pass returns footnote "4", while
renormalizing the returned number yields no footnote, so
normalize(normalize(x).number) ≠ normalize(x). -/
theorem C1_counterexample :
    normalize_article_number
        ((normalize_article_number "Art.7064".toList 2).1) 2 ≠
      normalize_article_number "Art.7064".toList 2 := by
  decide

/-- C3 counterexample: on a document whose first heading is preceded by other
text, the produced spans cover only the suffix from the first heading, so
their concatenation does not reconstruct the full text. -/
theorem C3_counterexample :
    find_articles_segments "X\nArt. 1\n".toList = [("1".toList, 2, 9)] ∧
    ((find_articles_segments "X\nArt. 1\n".toList).map
        (fun seg => extract "X\nArt. 1\n".toList seg.2.1 seg.2.2)).flatten ≠
      "X\nArt. 1\n".toList :=
  ⟨by decide, by decide⟩

/-- C4 counterexample: the offsets [0, 5] are monotone with first offset 0,
yet the zero-length span start = end = 5 is mapped to (2, 1), violating
page_start ≤ page_end. -/
theorem C4_counterexample :
    List.Sorted (· ≤ ·) [0, 5] ∧
    span_to_page_range 5 5 [0, 5] = (2, 1) ∧ ¬ (2 : Nat) ≤ 1 :=
  ⟨by decide, by decide, by decide⟩

/-- C8 counterexample: "12.5" is a dotted numeral of two groups of 1-3
digits, so under the claim's "one to three groups" pattern the text "12.5"
contains a match; the code's `DOC_ID_RE` requires exactly three groups and
returns None. -/
theorem C8_counterexample :
    guess_doc_id_from_first_page "12.5".toList = none ∧
    specHasDottedNumeral "12.5".toList = true :=
  ⟨by decide, by decide⟩

/-- C5: the fallback takes `old_ids[0]`, the first truthy doc_id in article
order, not the most frequently occurring one.  With articles carrying doc_ids
A, B, B and no recomputed id, the code assigns "A" although "B" occurs more
often — contradicting the line's own comment ("garder l'ancien doc_id
majoritaire") and the spec. -/
theorem C5_code_eval :
    chooseNewDocId none [some "A".toList, some "B".toList, some "B".toList]
        "stem".toList = "A".toList ∧
    (oldIds [some "A".toList, some "B".toList, some "B".toList]).count
        "A".toList <
      (oldIds [some "A".toList, some "B".toList, some "B".toList]).count
        "B".toList :=
  ⟨by decide, by decide⟩

/-- C6: when recomputation produces only the placeholder title, the stored
title of an existing Document is overwritten with the placeholder: main
substitutes "Titre inconnu" before the query, so the ON MATCH guard
`coalesce($docTitle, d2.title)` never sees null and cannot preserve the
previously stored title, contrary to the claim. -/
theorem C6_code_eval :
    reconcileStoredTitle (some "0.747.205".toList)
        (some "Titre inconnu".toList) true (some "Bon titre".toList) =
      some (some "Titre inconnu".toList) ∧
    (some "Titre inconnu".toList : Option (List Char)) ≠
      some "Bon titre".toList :=
  ⟨by decide, by decide⟩

theorem fallback_ne_nil (raw : List Char) :
    title_between_markers_fallback raw ≠ [] := by
  unfold title_between_markers_fallback
  by_cases h : titleClean (fallbackSeg raw) = []
  · simp only [h, ne_eq, not_true_eq_false, if_false]
    cases hf : ((pySplitlines raw).map pyStrip).find?
        (fun t => t ≠ [] && !(isDocIdLine t) && !(startsWithTexteOriginal t)) with
    | none => simp
    | some t =>
      have ht := List.find?_some hf
      simp only [Bool.and_eq_true, decide_eq_true_eq] at ht
      simp [ht.1.1]
  · simp [h]

/-- C9: the title fallback detector is total in the model and never returns
the empty string; when marker-based extraction fails (the cleaned
between-marker segment is empty) it returns the first nonempty stripped line
that is not the bare document-id line and does not start with the start
marker phrase, or the literal placeholder "Titre inconnu" when no line
qualifies.  The page-level detector likewise always returns a nonempty
string. -/
theorem C9_title_detector_total (raw : List Char) (pg : PyPage) :
    title_between_markers_fallback raw ≠ [] ∧
    (titleClean (fallbackSeg raw) = [] →
      title_between_markers_fallback raw =
        (((pySplitlines raw).map pyStrip).find?
            (fun t => t ≠ [] && !(isDocIdLine t) && !(startsWithTexteOriginal t))).getD
          "Titre inconnu".toList) ∧
    guess_doc_title_from_first_page pg ≠ [] := by
  refine ⟨fallback_ne_nil raw, ?_, ?_⟩
  · intro h
    unfold title_between_markers_fallback
    simp only [h, ne_eq, not_true_eq_false, if_false]
    cases hf : ((pySplitlines raw).map pyStrip).find?
        (fun t => t ≠ [] && !(isDocIdLine t) && !(startsWithTexteOriginal t)) with
    | none => simp
    | some t => simp
  · unfold guess_doc_title_from_first_page
    by_cases hl : pageLines pg = []
    · simp [hl, fallback_ne_nil]
    · simp only [hl, ite_false, if_false, if_neg, ne_eq]
      split
      · exact fallback_ne_nil _
      · rename_i sg hsg
        by_cases hc : titleClean sg = []
        · simp [hc, fallback_ne_nil]
        · simp [hc]
theorem posPageAux_eq (pos : Nat) :
    ∀ (l : List Nat) (i p : Nat),
      posPageAux pos l i p =
        if pagesLE l pos = 0 then p else i + pagesLE l pos - 1 := by
  intro l
  induction l with
  | nil => intro i p; simp [posPageAux, pagesLE]
  | cons off t ih =>
    intro i p
    by_cases h : off ≤ pos
    · simp only [posPageAux, if_pos h, ih, pagesLE, List.takeWhile_cons, h,
        decide_True, if_true, List.length_cons]
      by_cases h2 : (t.takeWhile (fun off => off ≤ pos)).length = 0
      · simp [h2]
      · simp only [h2, if_false]
        rw [if_neg (Nat.succ_ne_zero _)]
        omega
    · simp [posPageAux, h, pagesLE, List.takeWhile_cons]

theorem pos_to_page_eq (offs : List Nat) (pos : Nat) (h0 : offs.head? = some 0) :
    pos_to_page offs pos = pagesLE offs pos := by
  cases offs with
  | nil => simp at h0
  | cons a t =>
    simp only [List.head?_cons, Option.some.injEq] at h0
    subst h0
    have hLE : pagesLE (0 :: t) pos = (t.takeWhile (fun off => off ≤ pos)).length + 1 := by
      simp [pagesLE, List.takeWhile_cons]
    simp only [pos_to_page, posPageAux_eq, hLE]
    rw [if_neg (Nat.succ_ne_zero _)]
    omega

theorem pagesLE_le_length (offs : List Nat) (pos : Nat) :
    pagesLE offs pos ≤ offs.length :=
  List.Sublist.length_le (List.takeWhile_sublist _)

theorem pagesLE_pos (offs : List Nat) (pos : Nat) (h0 : offs.head? = some 0) :
    1 ≤ pagesLE offs pos := by
  cases offs with
  | nil => simp at h0
  | cons a t =>
    simp only [List.head?_cons, Option.some.injEq] at h0
    subst h0
    simp [pagesLE, List.takeWhile_cons]

theorem pagesLE_mono (offs : List Nat) (pos pos' : Nat) (h : pos ≤ pos') :
    pagesLE offs pos ≤ pagesLE offs pos' := by
  induction offs with
  | nil => simp [pagesLE]
  | cons a t ih =>
    by_cases ha : a ≤ pos
    · have ha' : a ≤ pos' := le_trans ha h
      simp only [pagesLE, List.takeWhile_cons] at ih ⊢
      simp only [ha, ha', decide_True, if_true, List.length_cons]
      omega
    · simp [pagesLE, List.takeWhile_cons, ha]

theorem pagesLE_get_le (offs : List Nat) (pos : Nat) :
    ∀ j x, offs.get? j = some x → j < pagesLE offs pos → x ≤ pos := by
  induction offs with
  | nil => intro j x hx; simp at hx
  | cons a t ih =>
    intro j x hx hj
    by_cases ha : a ≤ pos
    · cases j with
      | zero => simp only [List.get?_cons_zero, Option.some.injEq] at hx; omega
      | succ j =>
        simp only [List.get?_cons_succ] at hx
        simp only [pagesLE, List.takeWhile_cons, ha, decide_True, if_true,
          List.length_cons] at hj
        exact ih j x hx (Nat.lt_of_succ_lt_succ hj)
    · simp [pagesLE, List.takeWhile_cons, ha] at hj

theorem pagesLE_get_gt (offs : List Nat) (pos : Nat)
    (hsort : List.Sorted (· ≤ ·) offs) :
    ∀ j x, offs.get? j = some x → pagesLE offs pos ≤ j → pos < x := by
  induction offs with
  | nil => intro j x hx; simp at hx
  | cons a t ih =>
    intro j x hx hj
    by_cases ha : a ≤ pos
    · cases j with
      | zero =>
        simp only [pagesLE, List.takeWhile_cons, ha, decide_True, if_true,
          List.length_cons] at hj
        omega
      | succ j =>
        simp only [List.get?_cons_succ] at hx
        simp only [pagesLE, List.takeWhile_cons, ha, decide_True, if_true,
          List.length_cons] at hj
        exact ih (List.Sorted.of_cons hsort) j x hx (Nat.le_of_succ_le_succ hj)
    · cases j with
      | zero => simp only [List.get?_cons_zero, Option.some.injEq] at hx; omega
      | succ j =>
        simp only [List.get?_cons_succ] at hx
        have hax : a ≤ x := (List.sorted_cons.mp hsort).1 x (List.get?_mem hx)
        omega

theorem C4_span_to_page_range (start_idx end_idx : Nat) (offs : List Nat)
    (h0 : offs.head? = some 0) (hsort : List.Sorted (· ≤ ·) offs)
    (hse : start_idx ≤ end_idx) :
    1 ≤ (span_to_page_range start_idx end_idx offs).1 ∧
    (span_to_page_range start_idx end_idx offs).1 ≤ offs.length ∧
    1 ≤ (span_to_page_range start_idx end_idx offs).2 ∧
    (span_to_page_range start_idx end_idx offs).2 ≤ offs.length ∧
    (start_idx < end_idx →
      (span_to_page_range start_idx end_idx offs).1 ≤
        (span_to_page_range start_idx end_idx offs).2) ∧
    (span_to_page_range start_idx end_idx offs).2 =
      pos_to_page offs (if end_idx > 0 then end_idx - 1 else 0) ∧
    (∀ j x, offs.get? j = some x →
      (j < (span_to_page_range start_idx end_idx offs).1 → x ≤ start_idx) ∧
      ((span_to_page_range start_idx end_idx offs).1 ≤ j → start_idx < x)) := by
  have e1 : (span_to_page_range start_idx end_idx offs).1 = pagesLE offs start_idx := by
    simp [span_to_page_range, pos_to_page_eq offs _ h0]
  have e2 : (span_to_page_range start_idx end_idx offs).2 =
      pagesLE offs (if end_idx > 0 then end_idx - 1 else 0) := by
    simp only [span_to_page_range, pos_to_page_eq offs _ h0]
  refine ⟨?_, ?_, ?_, ?_, ?_, ?_, ?_⟩
  · rw [e1]; exact pagesLE_pos offs _ h0
  · rw [e1]; exact pagesLE_le_length offs _
  · rw [e2]; exact pagesLE_pos offs _ h0
  · rw [e2]; exact pagesLE_le_length offs _
  · intro hlt
    rw [e1, e2]
    have harg : start_idx ≤ (if end_idx > 0 then end_idx - 1 else 0) := by
      have : end_idx > 0 := by omega
      simp only [this, if_pos]
      omega
    exact pagesLE_mono offs _ _ harg
  · simp [span_to_page_range, pos_to_page_eq offs _ h0]
  · intro j x hx
    rw [e1]
    exact ⟨fun hj => pagesLE_get_le offs start_idx j x hx hj,
      fun hj => pagesLE_get_gt offs start_idx hsort j x hx hj⟩

theorem C4_span_witness :
    ((([0, 3] : List Nat).head? = some 0 ∧ List.Sorted (· ≤ ·) ([0, 3] : List Nat) ∧
        (1 : Nat) ≤ 5)) ∧
    (1 ≤ (span_to_page_range 1 5 [0, 3]).1 ∧
      (span_to_page_range 1 5 [0, 3]).1 ≤ ([0, 3] : List Nat).length ∧
      1 ≤ (span_to_page_range 1 5 [0, 3]).2 ∧
      (span_to_page_range 1 5 [0, 3]).2 ≤ ([0, 3] : List Nat).length ∧
      ((1 : Nat) < 5 →
        (span_to_page_range 1 5 [0, 3]).1 ≤ (span_to_page_range 1 5 [0, 3]).2) ∧
      (span_to_page_range 1 5 [0, 3]).2 =
        pos_to_page [0, 3] (if (5 : Nat) > 0 then 5 - 1 else 0) ∧
      (∀ j x, ([0, 3] : List Nat).get? j = some x →
        (j < (span_to_page_range 1 5 [0, 3]).1 → x ≤ 1) ∧
        ((span_to_page_range 1 5 [0, 3]).1 ≤ j → 1 < x))) :=
  ⟨⟨by decide, by decide, by decide⟩,
    C4_span_to_page_range 1 5 [0, 3] (by decide) (by decide) (by decide)⟩

theorem matchDocIdAt_ge_len (t : List Char) (q : Nat) (h : t.length ≤ q) :
    matchDocIdAt t q = none := by
  unfold matchDocIdAt
  have hd : t.drop q = [] := List.drop_eq_nil_of_le h
  by_cases hb : bLeft t q = true
  · simp [hb, hd]
  · simp [hb]

theorem searchDocIdAux_some (t : List Char) :
    ∀ f p m, searchDocIdAux t f p = some m →
      ∃ q, p ≤ q ∧ matchDocIdAt t q = some m ∧
        ∀ r, p ≤ r → r < q → matchDocIdAt t r = none := by
  intro f
  induction f with
  | zero => intro p m h; simp [searchDocIdAux] at h
  | succ f ih =>
    intro p m h
    unfold searchDocIdAux at h
    cases hm : matchDocIdAt t p with
    | some m2 =>
      rw [hm] at h
      refine ⟨p, le_refl p, ?_, fun r hr1 hr2 => absurd hr2 (by omega)⟩
      rw [hm]
      exact h
    | none =>
      rw [hm] at h
      obtain ⟨q, hq1, hq2, hq3⟩ := ih (p + 1) m h
      refine ⟨q, by omega, hq2, fun r hr1 hr2 => ?_⟩
      by_cases hr : r = p
      · rw [hr]; exact hm
      · exact hq3 r (by omega) hr2

theorem searchDocIdAux_none (t : List Char) :
    ∀ f p, searchDocIdAux t f p = none →
      ∀ q, p ≤ q → q < p + f → matchDocIdAt t q = none := by
  intro f
  induction f with
  | zero => intro p _ q h1 h2; omega
  | succ f ih =>
    intro p h q h1 h2
    unfold searchDocIdAux at h
    cases hm : matchDocIdAt t p with
    | some m2 => rw [hm] at h; exact absurd h (by simp)
    | none =>
      rw [hm] at h
      by_cases hq : q = p
      · rw [hq]; exact hm
      · exact ih (p + 1) h q (by omega) (by omega)

/-- C8 (amended): `guess_doc_id_from_first_page` returns the leftmost match of
the exactly-three-group dotted pattern `DOC_ID_RE` (the claim's "one to three
groups" must read "exactly three groups of 1-3 digits"); it returns none when
no position matches, and then `process_pdf` uses the caller-supplied filename
stem verbatim. -/
theorem C8_doc_id_first_match (t stem : List Char) :
    (∀ m, guess_doc_id_from_first_page t = some m →
      ∃ q, matchDocIdAt t q = some m ∧ ∀ r, r < q → matchDocIdAt t r = none) ∧
    (guess_doc_id_from_first_page t = none →
      (∀ q, matchDocIdAt t q = none) ∧ process_pdf_doc_id t stem = stem) := by
  constructor
  · intro m h
    obtain ⟨q, _, h2, h3⟩ := searchDocIdAux_some t (t.length + 1) 0 m h
    exact ⟨q, h2, fun r hr => h3 r (Nat.zero_le r) hr⟩
  · intro h
    constructor
    · intro q
      by_cases hq : q < t.length + 1
      · exact searchDocIdAux_none t (t.length + 1) 0 h q (Nat.zero_le q) (by omega)
      · exact matchDocIdAt_ge_len t q (by omega)
    · simp [process_pdf_doc_id, h]


theorem dollarAt_le (t : List Char) (e : Nat) (h : dollarAt t e = true) :
    e ≤ t.length := by
  unfold dollarAt at h
  simp only [Bool.or_eq_true, decide_eq_true_eq] at h
  cases h with
  | inl h => omega
  | inr h =>
    obtain ⟨hlt, -⟩ := List.get?_eq_some.mp h
    omega

theorem lastDollar_spec (t : List Char) (j : Nat) :
    ∀ k e, lastDollar t j k = some e → j ≤ e ∧ dollarAt t e = true := by
  intro k
  induction k with
  | zero =>
    intro e h
    unfold lastDollar at h
    by_cases hd : dollarAt t j = true
    · rw [if_pos hd] at h
      cases h
      exact ⟨le_refl _, hd⟩
    · rw [if_neg hd] at h
      cases h
  | succ k ih =>
    intro e h
    unfold lastDollar at h
    by_cases hd : dollarAt t (j + k + 1) = true
    · rw [if_pos hd] at h
      cases h
      exact ⟨by omega, hd⟩
    · rw [if_neg hd] at h
      exact ⟨by have := (ih e h).1; omega, (ih e h).2⟩

theorem headingTail_spec (t : List Char) (j1 : Nat) (ds : List Char) (e : Nat)
    (g : List Char) (h : headingTail t j1 ds = some (e, g)) :
    j1 ≤ e ∧ e ≤ t.length := by
  unfold headingTail at h
  split at h
  · split at h
    · split at h
      · rename_i hld
        injection h with h2
        obtain ⟨rfl, -⟩ := Prod.mk.injEq .. ▸ And.intro (congrArg Prod.fst h2) (congrArg Prod.snd h2)
        have hs := lastDollar_spec t _ _ _ hld
        exact ⟨by have := hs.1; omega, dollarAt_le t _ hs.2⟩
      · simp at h
    · split at h
      · rename_i hld
        injection h with h2
        obtain ⟨rfl, -⟩ := Prod.mk.injEq .. ▸ And.intro (congrArg Prod.fst h2) (congrArg Prod.snd h2)
        have hs := lastDollar_spec t _ _ _ hld
        exact ⟨hs.1, dollarAt_le t _ hs.2⟩
      · simp at h
  · split at h
    · rename_i hld
      injection h with h2
      obtain ⟨rfl, -⟩ := Prod.mk.injEq .. ▸ And.intro (congrArg Prod.fst h2) (congrArg Prod.snd h2)
      have hs := lastDollar_spec t _ _ _ hld
      exact ⟨hs.1, dollarAt_le t _ hs.2⟩
    · simp at h

theorem headingDigits_spec (t : List Char) (j0 e : Nat) (g : List Char)
    (h : headingDigits t j0 = some (e, g)) : j0 < e ∧ e ≤ t.length := by
  unfold headingDigits at h
  split at h
  · simp at h
  · rename_i d ds hds
    have hs := headingTail_spec t _ _ _ _ h
    have hlen : (d :: ds).length ≥ 1 := by simp
    exact ⟨by have := hs.1; omega, hs.2⟩

theorem matchHeadingAt_lt (t : List Char) (p e : Nat) (g : List Char)
    (h : matchHeadingAt t p = some (e, g)) : p < e ∧ e ≤ t.length := by
  unfold matchHeadingAt at h
  split at h
  · split at h
    · split at h
      · split at h
        · have hs := headingDigits_spec t _ _ _ h
          omega
        · simp at h
      · simp at h
    · simp at h
  · simp at h

theorem matchHeadingAt_ge_len (t : List Char) (p : Nat) (h : t.length ≤ p) :
    matchHeadingAt t p = none := by
  unfold matchHeadingAt
  have hd : t.drop (p + wsRunFrom t p) = [] :=
    List.drop_eq_nil_of_le (by omega)
  rw [hd]
  split <;> rfl

theorem findHeadingAux_some (t : List Char) :
    ∀ f p s e g, findHeadingAux t f p = some (s, e, g) →
      p ≤ s ∧ matchHeadingAt t s = some (e, g) ∧
        ∀ q, p ≤ q → q < s → matchHeadingAt t q = none := by
  intro f
  induction f with
  | zero => intro p s e g h; simp [findHeadingAux] at h
  | succ f ih =>
    intro p s e g h
    unfold findHeadingAux at h
    cases hm : matchHeadingAt t p with
    | some m2 =>
      rw [hm] at h
      injection h with h2
      obtain ⟨rfl, rfl⟩ : p = s ∧ m2 = (e, g) := by
        constructor
        · exact congrArg Prod.fst h2
        · have := congrArg Prod.snd h2; simpa using this
      exact ⟨le_refl _, hm, fun q h1 h2 => absurd h2 (by omega)⟩
    | none =>
      rw [hm] at h
      obtain ⟨h1, h2, h3⟩ := ih (p + 1) s e g h
      refine ⟨by omega, h2, fun q hq1 hq2 => ?_⟩
      by_cases hq : q = p
      · rw [hq]; exact hm
      · exact h3 q (by omega) hq2

theorem findHeadingAux_none (t : List Char) :
    ∀ f p, findHeadingAux t f p = none →
      ∀ q, p ≤ q → q < p + f → matchHeadingAt t q = none := by
  intro f
  induction f with
  | zero => intro p _ q h1 h2; omega
  | succ f ih =>
    intro p h q h1 h2
    unfold findHeadingAux at h
    cases hm : matchHeadingAt t p with
    | some m2 => rw [hm] at h; exact absurd h (by simp)
    | none =>
      rw [hm] at h
      by_cases hq : q = p
      · rw [hq]; exact hm
      · exact ih (p + 1) h q (by omega) (by omega)

theorem findHeadingFrom_some (t : List Char) (p s e : Nat) (g : List Char)
    (h : findHeadingFrom t p = some (s, e, g)) :
    p ≤ s ∧ matchHeadingAt t s = some (e, g) ∧
      ∀ q, p ≤ q → q < s → matchHeadingAt t q = none :=
  findHeadingAux_some t _ p s e g h

theorem findHeadingFrom_none (t : List Char) (p : Nat)
    (h : findHeadingFrom t p = none) :
    ∀ q, p ≤ q → matchHeadingAt t q = none := by
  intro q hq
  by_cases hql : q < t.length
  · unfold findHeadingFrom at h
    exact findHeadingAux_none t _ p h q hq (by omega)
  · exact matchHeadingAt_ge_len t q (by omega)

theorem headingMatchesAux_mem (t : List Char) :
    ∀ f pos m, m ∈ headingMatchesAux t f pos →
      pos ≤ m.1 ∧ m.1 < m.2.1 ∧ m.2.1 ≤ t.length := by
  intro f
  induction f with
  | zero => intro pos m h; simp [headingMatchesAux] at h
  | succ f ih =>
    intro pos m h
    unfold headingMatchesAux at h
    cases hf : findHeadingFrom t pos with
    | none => rw [hf] at h; simp at h
    | some m0 =>
      rw [hf] at h
      obtain ⟨s, e, g⟩ := m0
      obtain ⟨h1, h2, -⟩ := findHeadingFrom_some t pos s e g hf
      have hse := matchHeadingAt_lt t s e g h2
      rcases List.mem_cons.mp h with hm | hm
      · subst hm
        exact ⟨h1, hse.1, hse.2⟩
      · have := ih e m hm
        exact ⟨by omega, this.2.1, this.2.2⟩

theorem extract_append (t : List Char) (a b c : Nat) (hab : a ≤ b) (hbc : b ≤ c) :
    extract t a b ++ extract t b c = extract t a c := by
  unfold extract
  have h1 : t.drop b = (t.drop a).drop (b - a) := by
    rw [List.drop_drop]
    congr 1
    omega
  rw [h1]
  have h2 : c - a = (b - a) + (c - b) := by omega
  rw [h2, List.take_add]

theorem extract_drop (t : List Char) (s : Nat) :
    extract t s t.length = t.drop s := by
  unfold extract
  apply List.take_of_length_le
  rw [List.length_drop]

theorem segsOf_cons_cons (len : Nat) (s e : Nat) (g : List Char)
    (m2 : Nat × Nat × List Char) (rest : List (Nat × Nat × List Char)) :
    segsOf len ((s, e, g) :: m2 :: rest) = (g, s, m2.1) :: segsOf len (m2 :: rest) := rfl

theorem segsOf_one (len : Nat) (s e : Nat) (g : List Char) :
    segsOf len [(s, e, g)] = [(g, s, len)] := rfl

theorem segsOf_ne_nil (len : Nat) (m : Nat × Nat × List Char)
    (rest : List (Nat × Nat × List Char)) : segsOf len (m :: rest) ≠ [] := by
  obtain ⟨s, e, g⟩ := m
  cases rest with
  | nil => simp [segsOf_one]
  | cons m2 rest2 => rw [segsOf_cons_cons]; simp

theorem segsOf_head (len : Nat) (s e : Nat) (g : List Char)
    (rest : List (Nat × Nat × List Char)) :
    ∃ x, (segsOf len ((s, e, g) :: rest)).head? = some (g, s, x) := by
  cases rest with
  | nil => exact ⟨len, rfl⟩
  | cons m2 rest2 => exact ⟨m2.1, rfl⟩

theorem segsOf_chain (len : Nat) :
    ∀ ms : List (Nat × Nat × List Char),
      List.Chain' (fun a b => a.2.2 = b.2.1) (segsOf len ms) := by
  intro ms
  induction ms with
  | nil => simp [segsOf]
  | cons m1 rest ih =>
    obtain ⟨s, e, g⟩ := m1
    cases rest with
    | nil => simp [segsOf_one]
    | cons m2 rest2 =>
      rw [segsOf_cons_cons]
      apply List.chain'_cons'.mpr
      refine ⟨?_, ih⟩
      intro b hb
      obtain ⟨s2, e2, g2⟩ := m2
      obtain ⟨x, hx⟩ := segsOf_head len s2 e2 g2 rest2
      rw [hx] at hb
      cases hb
      rfl

theorem segsOf_last (len : Nat) :
    ∀ ms : List (Nat × Nat × List Char), ms ≠ [] →
      ∃ l, (segsOf len ms).getLast? = some l ∧ l.2.2 = len := by
  intro ms
  induction ms with
  | nil => intro h; exact absurd rfl h
  | cons m rest ih =>
    intro _
    obtain ⟨s, e, g⟩ := m
    cases rest with
    | nil => exact ⟨(g, s, len), by rw [segsOf_one]; rfl, rfl⟩
    | cons m2 rest2 =>
      obtain ⟨l, hl1, hl2⟩ := ih (by simp)
      refine ⟨l, ?_, hl2⟩
      rw [segsOf_cons_cons]
      cases hsg : segsOf len (m2 :: rest2) with
      | nil => exact absurd hsg (segsOf_ne_nil len m2 rest2)
      | cons x xs =>
        rw [hsg] at hl1
        rw [List.getLast?_cons_cons]
        exact hl1

theorem headingMatchesAux_concat (t : List Char) :
    ∀ f pos s e g rest,
      headingMatchesAux t f pos = (s, e, g) :: rest →
      ((segsOf t.length ((s, e, g) :: rest)).map
          (fun seg => extract t seg.2.1 seg.2.2)).flatten = extract t s t.length := by
  intro f
  induction f with
  | zero => intro pos s e g rest h; simp [headingMatchesAux] at h
  | succ f ih =>
    intro pos s e g rest h
    unfold headingMatchesAux at h
    cases hf : findHeadingFrom t pos with
    | none => rw [hf] at h; simp at h
    | some m0 =>
      rw [hf] at h
      obtain ⟨s0, e0, g0⟩ := m0
      injection h with h1 h2
      simp only [Prod.mk.injEq] at h1
      obtain ⟨hs, he, hg⟩ := h1
      rw [← hs, ← hg]
      cases hr : headingMatchesAux t f e0 with
      | nil =>
        rw [hr] at h2
        subst h2
        rw [segsOf_one]
        simp [extract]
      | cons m2 rest2 =>
        rw [hr] at h2
        subst h2
        obtain ⟨s2, e2, g2⟩ := m2
        have hih := ih e0 s2 e2 g2 rest2 hr
        have hmem := headingMatchesAux_mem t f e0 (s2, e2, g2)
          (by rw [hr]; exact List.mem_cons_self _ _)
        have hse := matchHeadingAt_lt t s0 e0 g0 (findHeadingFrom_some t pos s0 e0 g0 hf).2.1
        rw [segsOf_cons_cons]
        simp only [List.map_cons, List.flatten_cons]
        rw [hih]
        exact extract_append t s0 s2 t.length
          (by have hb1 := hse.1; have hb2 := hmem.1; omega)
          (by have hb3 := hmem.2.1; have hb4 := hmem.2.2; omega)

/-- C3 (amended): whenever the heading pattern matches at least once, the
produced spans tile the text contiguously from the start of the first (that
is, leftmost) heading match to the end of the text: consecutive spans share
their boundary (no gaps, no overlaps), the last span ends at the text length,
and the concatenation of the spans' slices reconstructs the text from the
first heading on — the whole text exactly when the first heading starts at
offset 0; text before the first heading is not covered (see the
counterexample). -/
theorem headingMatchesAux_cons (t : List Char) (f pos : Nat)
    (m : Nat × Nat × List Char) (rest : List (Nat × Nat × List Char))
    (h : headingMatchesAux t f pos = m :: rest) :
    findHeadingFrom t pos = some m := by
  cases f with
  | zero => simp [headingMatchesAux] at h
  | succ f =>
    unfold headingMatchesAux at h
    cases hf : findHeadingFrom t pos with
    | none => rw [hf] at h; simp at h
    | some m1 =>
      rw [hf] at h
      injection h with h1 h2
      exact congrArg some h1

/-- C3 (amended): whenever the heading pattern matches at least once, the
produced spans tile the text contiguously from the start of the first (that
is, leftmost) heading match to the end of the text: consecutive spans share
their boundary (no gaps, no overlaps), the last span ends at the text length,
and the concatenation of the spans' slices reconstructs the text from the
first heading on — the whole text exactly when the first heading starts at
offset 0; text before the first heading is not covered (see the
counterexample). -/
theorem C3_segments_tile (t : List Char) (h : find_articles_segments t ≠ []) :
    List.Chain' (fun a b => a.2.2 = b.2.1) (find_articles_segments t) ∧
    ∃ firstSeg lastSeg,
      (find_articles_segments t).head? = some firstSeg ∧
      (find_articles_segments t).getLast? = some lastSeg ∧
      lastSeg.2.2 = t.length ∧
      (∃ e2 g2, matchHeadingAt t firstSeg.2.1 = some (e2, g2) ∧
        ∀ q, q < firstSeg.2.1 → matchHeadingAt t q = none) ∧
      ((find_articles_segments t).map (fun seg => extract t seg.2.1 seg.2.2)).flatten =
        t.drop firstSeg.2.1 := by
  refine ⟨segsOf_chain t.length (headingMatches t), ?_⟩
  cases hm : headingMatches t with
  | nil =>
    exact absurd (by unfold find_articles_segments; rw [hm]; rfl) h
  | cons m0 rest =>
    obtain ⟨s, e, g⟩ := m0
    have hseg : find_articles_segments t = segsOf t.length ((s, e, g) :: rest) := by
      unfold find_articles_segments
      rw [hm]
    have hmaux : headingMatchesAux t (t.length + 1) 0 = (s, e, g) :: rest := hm
    have hf : findHeadingFrom t 0 = some (s, e, g) :=
      headingMatchesAux_cons t (t.length + 1) 0 (s, e, g) rest hmaux
    obtain ⟨-, hmatch, hleft⟩ := findHeadingFrom_some t 0 s e g hf
    obtain ⟨x, hx⟩ := segsOf_head t.length s e g rest
    obtain ⟨l, hl1, hl2⟩ := segsOf_last t.length ((s, e, g) :: rest) (by simp)
    refine ⟨(g, s, x), l, ?_, ?_, hl2, ⟨e, g, hmatch, fun q hq =>
      hleft q (Nat.zero_le q) hq⟩, ?_⟩
    · rw [hseg]; exact hx
    · rw [hseg]; exact hl1
    · rw [hseg]
      have hc := headingMatchesAux_concat t (t.length + 1) 0 s e g rest hmaux
      rw [hc]
      exact extract_drop t s

theorem dropWhile_eq_drop {α : Type} (p : α → Bool) :
    ∀ l : List α, l.dropWhile p = l.drop (l.takeWhile p).length := by
  intro l
  induction l with
  | nil => rfl
  | cons c t ih =>
    by_cases hc : p c
    · simp [List.dropWhile_cons, List.takeWhile_cons, hc, ih]
    · simp [List.dropWhile_cons, List.takeWhile_cons, hc]

theorem pyNorm_invariant (u : List Char)
    (h : ∀ c ∈ u, nfkdChar c = [c] ∧ isCombiningMark c = false) :
    pyNorm u = u := by
  induction u with
  | nil => rfl
  | cons c t ih =>
    have hc := h c (List.mem_cons_self _ _)
    have ht := ih (fun d hd => h d (List.mem_cons_of_mem _ hd))
    unfold pyNorm at ht ⊢
    simp only [List.map_cons, List.flatten_cons, hc.1, List.singleton_append,
      List.filter_cons, hc.2, Bool.not_false, if_true]
    rw [ht]

theorem searchConcluAux_some (t : List Char) :
    ∀ f s0 q, searchConcluAux t f s0 = some q →
      s0 ≤ q ∧ matchConcluAt t q = true := by
  intro f
  induction f with
  | zero => intro s0 q h; simp [searchConcluAux] at h
  | succ f ih =>
    intro s0 q h
    unfold searchConcluAux at h
    by_cases hm : matchConcluAt t s0 = true
    · rw [if_pos hm] at h
      cases h
      exact ⟨le_refl _, hm⟩
    · rw [if_neg hm] at h
      have := ih (s0 + 1) q h
      exact ⟨by omega, this.2⟩

theorem searchConcluFrom_some (t : List Char) (s0 q : Nat)
    (h : searchConcluFrom t s0 = some q) :
    s0 ≤ q ∧ matchConcluAt t q = true := by
  unfold searchConcluFrom at h
  exact searchConcluAux_some t _ s0 q h

theorem searchTexteOriginalAux_some (t : List Char) :
    ∀ f p e, searchTexteOriginalAux t f p = some e →
      ∃ p2, matchTexteOriginalAt t p2 = some e := by
  intro f
  induction f with
  | zero => intro p e h; simp [searchTexteOriginalAux] at h
  | succ f ih =>
    intro p e h
    unfold searchTexteOriginalAux at h
    cases hm : matchTexteOriginalAt t p with
    | some e2 =>
      rw [hm] at h
      cases h
      exact ⟨p, hm⟩
    | none =>
      rw [hm] at h
      exact ih (p + 1) e h

theorem searchTexteOriginal_some (t : List Char) (e : Nat)
    (h : searchTexteOriginal t = some e) :
    ∃ p2, matchTexteOriginalAt t p2 = some e := by
  unfold searchTexteOriginal at h
  exact searchTexteOriginalAux_some t _ 0 e h

theorem ciIs_isWord (c tgt : Char) (htgt : tgt ∈ lowerLetters)
    (h : ciIs c tgt = true) : isWordCh c = true := by
  unfold ciIs asciiLower at h
  cases hf : lowerPairs.find? (fun p => p.1 = c) with
  | some pr =>
    rw [hf] at h
    have hc : pr.1 = c := by
      have := List.find?_some hf
      simpa using this
    have hmem := List.mem_of_find?_eq_some hf
    have hall : ∀ p ∈ lowerPairs, isWordCh p.1 = true := by decide
    rw [← hc]
    exact hall pr hmem
  | none =>
    rw [hf] at h
    simp at h
    subst h
    have hall : ∀ d ∈ lowerLetters, isWordCh d = true := by decide
    exact hall _ htgt

theorem texteOriginalTail_spec (t : List Char) (p5 : Nat) (rest : List Char)
    (e : Nat) (h : texteOriginalTail t p5 rest = some e) :
    ∃ c, (rest.dropWhile isWS).get? 7 = some c ∧ isWordCh c = true ∧
      e = p5 + (rest.takeWhile isWS).length + 8 := by
  unfold texteOriginalTail at h
  split at h
  · simp at h
  · split at h
    · split at h
      · rename_i heq hci
        injection h with he
        simp only [Bool.and_eq_true] at hci
        refine ⟨_, by rw [heq]; rfl, ?_, he.symm⟩
        exact ciIs_isWord _ 'l' (by decide) hci.2
      · simp at h
    · simp at h

theorem matchTexteOriginal_word_end (t : List Char) (p e : Nat)
    (h : matchTexteOriginalAt t p = some e) :
    1 ≤ e ∧ ∃ c, t.get? (e - 1) = some c ∧ isWordCh c = true := by
  unfold matchTexteOriginalAt at h
  split at h
  · rename_i c1 c2 c3 c4 c5 rest heq
    split at h
    · obtain ⟨c, hget, hword, he⟩ := texteOriginalTail_spec t (p + 5) rest e h
      have h5 : t.drop (p + 5) = rest := by
        have hh : (t.drop p).drop 5 = rest := by rw [heq]; rfl
        rw [List.drop_drop] at hh
        exact hh
      refine ⟨by omega, c, ?_, hword⟩
      rw [dropWhile_eq_drop] at hget
      rw [← h5] at hget
      rw [List.get?_drop, List.get?_drop] at hget
      rw [show e - 1 = p + 5 + ((List.takeWhile isWS (t.drop (p + 5))).length + 7)
        from by rw [h5]; omega]
      exact hget
    · simp at h
  · simp at h

theorem matchConcluAt_bLeft (t : List Char) (q : Nat)
    (h : matchConcluAt t q = true) : bLeft t q = true := by
  unfold matchConcluAt at h
  simp only [Bool.and_eq_true] at h
  exact h.1

theorem bLeft_false_of_word (t : List Char) (q : Nat) (hq : 1 ≤ q) (c : Char)
    (hc : t.get? (q - 1) = some c) (hw : isWordCh c = true) :
    bLeft t q = false := by
  unfold bLeft
  rw [hc]
  have hne : ¬ (q = 0) := by omega
  simp [hw, hne]

/-- C7 (amended): on a page whose upper-half text contains the start marker
and, strictly after it, the end marker, the detector returns the cleaned text
strictly between the markers (whitespace collapsed, soft hyphens stripped,
hyphen-broken wraps rejoined) — provided the upper-half text is unchanged by
the NFKD normalization used for marker search (otherwise the slice indices
shift, see the counterexample) and the cleaned between-text is nonempty
(otherwise the code falls back, see the counterexample). -/
theorem C7_title_between_markers (pg : PyPage) (e q : Nat)
    (hinv : ∀ c ∈ topText pg, nfkdChar c = [c] ∧ isCombiningMark c = false)
    (hstart : searchTexteOriginal (topText pg) = some e)
    (hend : searchConcluFrom (topText pg) e = some q)
    (hne : titleClean (extract (topText pg) e q) ≠ []) :
    guess_doc_title_from_first_page pg = titleClean (extract (topText pg) e q) := by
  have hnorm : pyNorm (topText pg) = topText pg := pyNorm_invariant _ hinv
  have hlines : ¬ pageLines pg = [] := by
    intro hl
    have htt : topText pg = [] := by simp [topText, sortByY, hl, joinNL]
    rw [htt] at hstart
    have hnone : searchTexteOriginal ([] : List Char) = none := rfl
    rw [hnone] at hstart
    cases hstart
  have heq : e < q := by
    have hsp := searchConcluFrom_some (topText pg) e q hend
    obtain ⟨p2, hp2⟩ := searchTexteOriginal_some _ _ hstart
    obtain ⟨h1e, c, hc, hw⟩ := matchTexteOriginal_word_end _ _ _ hp2
    rcases Nat.lt_or_ge e q with hlt | hge
    · exact hlt
    · have hqe : q = e := by omega
      subst hqe
      have hbl := matchConcluAt_bLeft _ _ hsp.2
      rw [bLeft_false_of_word (topText pg) q h1e c hc hw] at hbl
      cases hbl
  unfold guess_doc_title_from_first_page
  rw [if_neg hlines]
  simp only [hnorm, hstart, hend, if_pos heq]
  rw [if_pos hne]

/-- C7 counterexample, two pages inside the claim's hypothesis domain (both
markers present in the upper-half text, end after start) where the result is
not the whitespace-collapsed between-marker text: on pgA the between-text is
a single space, its cleaned form is empty and the code falls back to the
placeholder; on pgB a combining accent makes the NFKD-normalized marker
positions differ from the raw ones, and the slice grabs the last letter of
"original" instead of the title alone. -/
theorem C7_counterexample :
    (searchTexteOriginal (topText pgA) = some 14 ∧
     searchConcluFrom (topText pgA) 14 = some 15 ∧
     titleClean (extract (topText pgA) 14 15) = [] ∧
     guess_doc_title_from_first_page pgA = "Titre inconnu".toList ∧
     guess_doc_title_from_first_page pgA ≠ titleClean (extract (topText pgA) 14 15)) ∧
    (searchTexteOriginal (topText pgB) = some 17 ∧
     searchConcluFrom (topText pgB) 17 = some 20 ∧
     titleClean (extract (topText pgB) 17 20) = "X".toList ∧
     guess_doc_title_from_first_page pgB = "l X".toList ∧
     guess_doc_title_from_first_page pgB ≠ titleClean (extract (topText pgB) 17 20)) :=
  ⟨⟨by decide, by decide, by decide, by decide, by decide⟩,
   ⟨by decide, by decide, by decide, by decide, by decide⟩⟩

theorem C7_title_witness :
    ((∀ c ∈ topText pgW, nfkdChar c = [c] ∧ isCombiningMark c = false) ∧
      searchTexteOriginal (topText pgW) = some 14 ∧
      searchConcluFrom (topText pgW) 14 = some 25 ∧
      titleClean (extract (topText pgW) 14 25) ≠ []) ∧
    guess_doc_title_from_first_page pgW = titleClean (extract (topText pgW) 14 25) :=
  ⟨⟨by decide, by decide, by decide, by decide⟩,
    C7_title_between_markers pgW 14 25 (by decide) (by decide) (by decide) (by decide)⟩

theorem C3_segments_witness :
    (find_articles_segments "Art. 1\nbody\nArt. 2\nmore".toList ≠ []) ∧
    (List.Chain' (fun a b => a.2.2 = b.2.1)
        (find_articles_segments "Art. 1\nbody\nArt. 2\nmore".toList) ∧
      ∃ firstSeg lastSeg,
        (find_articles_segments "Art. 1\nbody\nArt. 2\nmore".toList).head? =
          some firstSeg ∧
        (find_articles_segments "Art. 1\nbody\nArt. 2\nmore".toList).getLast? =
          some lastSeg ∧
        lastSeg.2.2 = "Art. 1\nbody\nArt. 2\nmore".toList.length ∧
        (∃ e2 g2, matchHeadingAt "Art. 1\nbody\nArt. 2\nmore".toList firstSeg.2.1 =
            some (e2, g2) ∧
          ∀ q, q < firstSeg.2.1 →
            matchHeadingAt "Art. 1\nbody\nArt. 2\nmore".toList q = none) ∧
        ((find_articles_segments "Art. 1\nbody\nArt. 2\nmore".toList).map
            (fun seg => extract "Art. 1\nbody\nArt. 2\nmore".toList seg.2.1 seg.2.2)).flatten =
          "Art. 1\nbody\nArt. 2\nmore".toList.drop firstSeg.2.1) :=
  ⟨by decide, C3_segments_tile "Art. 1\nbody\nArt. 2\nmore".toList (by decide)⟩

set_option maxHeartbeats 1000000 in
theorem supWS (c : Char) : isWS (supTr c) = isWS c := by
  unfold supTr
  split_ifs <;> subst_vars <;> rfl

set_option maxHeartbeats 1000000 in
theorem supTr_eq_or (c : Char) : supTr c = c ∨ supTr c ∈ digitChars := by
  unfold supTr
  split_ifs <;> first | exact Or.inl rfl | (right; decide)

theorem sup_digit : ∀ d ∈ digitChars, supTr d = d := by decide

theorem sup_sup (c : Char) : supTr (supTr c) = supTr c := by
  rcases supTr_eq_or c with h | h
  · rw [h]
    exact h
  · exact sup_digit _ h

theorem map_id_of {α : Type} (f : α → α) :
    ∀ l : List α, (∀ c ∈ l, f c = c) → l.map f = l := by
  intro l
  induction l with
  | nil => intro _; rfl
  | cons c t ih =>
    intro h
    simp only [List.map_cons]
    rw [h c (List.mem_cons_self _ _), ih (fun d hd => h d (List.mem_cons_of_mem _ hd))]

theorem head?_dropWhile_false {α : Type} (p : α → Bool) :
    ∀ (l : List α) c, (l.dropWhile p).head? = some c → p c = false := by
  intro l
  induction l with
  | nil => intro c h; simp at h
  | cons a t ih =>
    intro c h
    by_cases ha : p a
    · rw [List.dropWhile_cons, if_pos ha] at h
      exact ih c h
    · rw [List.dropWhile_cons, if_neg ha] at h
      simp only [List.head?_cons, Option.some.injEq] at h
      subst h
      exact Bool.eq_false_iff.mpr ha

theorem dropWhile_of_noLead (s : List Char) (h : noLeadWS s) :
    s.dropWhile isWS = s := by
  cases s with
  | nil => rfl
  | cons c t =>
    rw [List.dropWhile_cons, if_neg]
    rw [h c (by rfl)]
    simp

theorem head?_take {α : Type} (l : List α) (m : Nat) (c : α)
    (h : (l.take m).head? = some c) : l.head? = some c := by
  cases l with
  | nil => simp at h
  | cons a t =>
    cases m with
    | zero => simp at h
    | succ m => simpa using h

theorem pyStripR_noTrail (y : List Char) : noTrailWS (pyStripR y) := by
  intro c hc
  unfold pyStripR at hc
  rw [List.getLast?_reverse] at hc
  exact head?_dropWhile_false isWS _ c hc

theorem getLast?_drop_some {α : Type} :
    ∀ (l : List α) (n : Nat) (c : α), (l.drop n).getLast? = some c →
      l.getLast? = some c := by
  intro l
  induction l with
  | nil => intro n c h; simp at h
  | cons a t ih =>
    intro n c h
    cases n with
    | zero => exact h
    | succ n =>
      rw [List.drop_succ_cons] at h
      have ht := ih n c h
      cases t with
      | nil => simp at ht
      | cons b t2 => rw [List.getLast?_cons_cons]; exact ht

theorem pyStripR_noLead (y : List Char) (h : noLeadWS y) :
    noLeadWS (pyStripR y) := by
  intro c hc
  unfold pyStripR at hc
  rw [List.head?_reverse] at hc
  rw [dropWhile_eq_drop] at hc
  have := getLast?_drop_some _ _ _ hc
  rw [List.getLast?_reverse] at this
  exact h c this

theorem pyStrip_noLead (s : List Char) : noLeadWS (pyStrip s) := by
  unfold pyStrip pyStripL
  apply pyStripR_noLead
  intro c hc
  exact head?_dropWhile_false isWS s c hc

theorem pyStrip_noTrail (s : List Char) : noTrailWS (pyStrip s) :=
  pyStripR_noTrail _

theorem pyStrip_fix (s : List Char) (h1 : noLeadWS s) (h2 : noTrailWS s) :
    pyStrip s = s := by
  unfold pyStrip pyStripL pyStripR
  rw [dropWhile_of_noLead s h1]
  rw [show s.reverse.dropWhile isWS = s.reverse from ?_, List.reverse_reverse]
  apply dropWhile_of_noLead
  intro c hc
  rw [List.head?_reverse] at hc
  exact h2 c hc

theorem subWS_ne_nil : ∀ s : List Char, s ≠ [] → subWS s ≠ [] := by
  intro s
  induction s using subWS.induct with
  | case1 => intro h; exact absurd rfl h
  | case2 c hc => intro _; simp [subWS, hc]
  | case3 c hc => intro _; simp [subWS, hc]
  | case4 c d t hc hd ih =>
    intro _
    rw [show subWS (c :: d :: t) = subWS (d :: t) from by simp [subWS, hc, hd]]
    exact ih (by simp)
  | case5 c d t hc hd ih => intro _; simp [subWS, hc, hd]
  | case6 c d t hc ih => intro _; simp [subWS, hc]

theorem subWS_head_not (d : Char) (t : List Char) (hd : isWS d = false) :
    (subWS (d :: t)).head? = some d := by
  cases t with
  | nil => simp [subWS, hd]
  | cons e t2 => simp [subWS, hd]

theorem subWS_noLead (s : List Char) (h : noLeadWS s) : noLeadWS (subWS s) := by
  cases s with
  | nil => intro c hc; simp [subWS] at hc
  | cons c t =>
    intro c' hc'
    rw [subWS_head_not c t (h c rfl)] at hc'
    injection hc' with h2
    rw [← h2]
    exact h c rfl

theorem noTrail_tail (x : Char) (l : List Char) (h : noTrailWS (x :: l)) :
    noTrailWS l := by
  intro c hc
  cases l with
  | nil => simp at hc
  | cons b t =>
    apply h c
    rw [List.getLast?_cons_cons]
    exact hc

theorem getLast?_cons_ne {α : Type} (x : α) (z : List α) (hz : z ≠ []) :
    (x :: z).getLast? = z.getLast? := by
  cases z with
  | nil => exact absurd rfl hz
  | cons b t => exact List.getLast?_cons_cons

theorem subWS_noTrail (s : List Char) (h : noTrailWS s) :
    noTrailWS (subWS s) := by
  induction s using subWS.induct with
  | case1 => intro c hc; simp [subWS] at hc
  | case2 c hc =>
    exact absurd (h c (by simp)) (by simp [hc])
  | case3 c hc =>
    intro c' hc'
    simp only [subWS, hc, if_false, Bool.false_eq_true] at hc'
    exact h c' hc'
  | case4 c d t hc hd ih =>
    rw [show subWS (c :: d :: t) = subWS (d :: t) from by simp [subWS, hc, hd]]
    exact ih (noTrail_tail _ _ h)
  | case5 c d t hc hd ih =>
    rw [show subWS (c :: d :: t) = ' ' :: subWS (d :: t) from by simp [subWS, hc, hd]]
    intro c' hc'
    rw [getLast?_cons_ne _ _ (subWS_ne_nil (d :: t) (by simp))] at hc'
    exact ih (noTrail_tail _ _ h) c' hc'
  | case6 c d t hc ih =>
    rw [show subWS (c :: d :: t) = c :: subWS (d :: t) from by simp [subWS, hc]]
    intro c' hc'
    rw [getLast?_cons_ne _ _ (subWS_ne_nil (d :: t) (by simp))] at hc'
    exact ih (noTrail_tail _ _ h) c' hc'

theorem singleWS_tail (x : Char) (l : List Char) (h : singleWS (x :: l)) :
    singleWS l :=
  ⟨fun c hc => h.1 c (List.mem_cons_of_mem _ hc), (List.chain'_cons'.mp h.2).2⟩

theorem singleWS_subWS : ∀ s : List Char, singleWS (subWS s) := by
  intro s
  induction s using subWS.induct with
  | case1 => exact ⟨by simp [subWS], by simp [subWS]⟩
  | case2 c hc =>
    refine ⟨?_, ?_⟩
    · intro c' hc' _
      simp only [subWS, hc, if_true] at hc'
      simpa using hc'
    · simp [subWS, hc]
  | case3 c hc =>
    refine ⟨?_, ?_⟩
    · intro c' hc' hw
      simp only [subWS, hc, if_false, Bool.false_eq_true] at hc'
      simp only [List.mem_singleton] at hc'
      subst hc'
      rw [hw] at hc
      exact absurd rfl hc
    · simp [subWS, hc]
  | case4 c d t hc hd ih =>
    rw [show subWS (c :: d :: t) = subWS (d :: t) from by simp [subWS, hc, hd]]
    exact ih
  | case5 c d t hc hd ih =>
    rw [show subWS (c :: d :: t) = ' ' :: subWS (d :: t) from by simp [subWS, hc, hd]]
    refine ⟨?_, ?_⟩
    · intro c' hc' hw
      rcases List.mem_cons.mp hc' with h1 | h1
      · exact h1
      · exact ih.1 c' h1 hw
    · apply List.chain'_cons'.mpr
      refine ⟨?_, ih.2⟩
      intro b hb
      rw [subWS_head_not d t (Bool.eq_false_iff.mpr hd)] at hb
      injection hb with hb2
      subst hb2
      intro hcon
      rw [hcon.2] at hd
      exact hd rfl
  | case6 c d t hc ih =>
    rw [show subWS (c :: d :: t) = c :: subWS (d :: t) from by simp [subWS, hc]]
    refine ⟨?_, ?_⟩
    · intro c' hc' hw
      rcases List.mem_cons.mp hc' with h1 | h1
      · subst h1; rw [hw] at hc; exact absurd rfl hc
      · exact ih.1 c' h1 hw
    · apply List.chain'_cons'.mpr
      refine ⟨?_, ih.2⟩
      intro b _ hcon
      rw [hcon.1] at hc
      exact hc rfl

theorem subWS_fix : ∀ s : List Char, singleWS s → subWS s = s := by
  intro s
  induction s using subWS.induct with
  | case1 => intro _; rfl
  | case2 c hc =>
    intro h
    have := h.1 c (by simp) hc
    simp [subWS, hc, this]
  | case3 c hc => intro h; simp [subWS, hc]
  | case4 c d t hc hd ih =>
    intro h
    have hrel := (List.chain'_cons'.mp h.2).1 d (by simp)
    exact absurd ⟨hc, hd⟩ hrel
  | case5 c d t hc hd ih =>
    intro h
    have hcsp := h.1 c (by simp) hc
    rw [show subWS (c :: d :: t) = ' ' :: subWS (d :: t) from by simp [subWS, hc, hd]]
    rw [ih (singleWS_tail _ _ h), hcsp]
  | case6 c d t hc ih =>
    intro h
    rw [show subWS (c :: d :: t) = c :: subWS (d :: t) from by simp [subWS, hc]]
    rw [ih (singleWS_tail _ _ h)]

theorem dropWhile_map_sup (s : List Char) :
    (s.map supTr).dropWhile isWS = (s.dropWhile isWS).map supTr := by
  induction s with
  | nil => rfl
  | cons c t ih =>
    simp only [List.map_cons, List.dropWhile_cons, supWS c]
    by_cases hc : isWS c
    · simp only [hc, if_true, ih]
    · simp [hc]

theorem pyStrip_map_sup (s : List Char) :
    pyStrip (s.map supTr) = (pyStrip s).map supTr := by
  unfold pyStrip pyStripL pyStripR
  rw [dropWhile_map_sup]
  rw [← List.map_reverse, dropWhile_map_sup, ← List.map_reverse]

theorem subWS_map_sup : ∀ s : List Char, subWS (s.map supTr) = (subWS s).map supTr := by
  intro s
  induction s using subWS.induct with
  | case1 => rfl
  | case2 c hc =>
    simp only [List.map_cons, List.map_nil]
    rw [show subWS [c] = [' '] from by simp [subWS, hc]]
    rw [show subWS [supTr c] = [' '] from by simp [subWS, supWS, hc]]
    decide
  | case3 c hc => simp [subWS, supWS, hc]
  | case4 c d t hc hd ih =>
    simp only [List.map_cons] at ih ⊢
    rw [show subWS (c :: d :: t) = subWS (d :: t) from by simp [subWS, hc, hd]]
    rw [show subWS (supTr c :: supTr d :: t.map supTr) = subWS (supTr d :: t.map supTr)
      from by simp [subWS, supWS, hc, hd]]
    exact ih
  | case5 c d t hc hd ih =>
    simp only [List.map_cons] at ih ⊢
    rw [show subWS (c :: d :: t) = ' ' :: subWS (d :: t) from by simp [subWS, hc, hd]]
    rw [show subWS (supTr c :: supTr d :: t.map supTr) = ' ' :: subWS (supTr d :: t.map supTr)
      from by simp [subWS, supWS, hc, hd]]
    rw [ih]
    rfl
  | case6 c d t hc ih =>
    simp only [List.map_cons] at ih ⊢
    rw [show subWS (c :: d :: t) = c :: subWS (d :: t) from by simp [subWS, hc]]
    rw [show subWS (supTr c :: supTr d :: t.map supTr) = supTr c :: subWS (supTr d :: t.map supTr)
      from by simp [subWS, supWS, hc]]
    rw [ih]
    rfl

theorem pyCanon_noLead (raw : List Char) : noLeadWS (pyCanon raw) := by
  intro c hc
  unfold pyCanon at hc
  rw [List.head?_map] at hc
  cases hu : (subWS (pyStrip raw)).head? with
  | none => rw [hu] at hc; cases hc
  | some c0 =>
    rw [hu] at hc
    injection hc with h2
    rw [← h2, supWS]
    exact subWS_noLead _ (pyStrip_noLead raw) c0 hu

theorem pyCanon_noTrail (raw : List Char) : noTrailWS (pyCanon raw) := by
  intro c hc
  unfold pyCanon at hc
  rw [List.getLast?_map] at hc
  cases hu : (subWS (pyStrip raw)).getLast? with
  | none => rw [hu] at hc; cases hc
  | some c0 =>
    rw [hu] at hc
    injection hc with h2
    rw [← h2, supWS]
    exact subWS_noTrail _ (pyStrip_noTrail raw) c0 hu

theorem singleWS_map_sup (u : List Char) (h : singleWS u) :
    singleWS (u.map supTr) := by
  refine ⟨?_, ?_⟩
  · intro c hc hw
    obtain ⟨c0, hc0, rfl⟩ := List.mem_map.mp hc
    rw [supWS] at hw
    rw [h.1 c0 hc0 hw]
    rfl
  · rw [List.chain'_map]
    apply List.Chain'.imp ?_ h.2
    intro a b hab hcon
    rw [supWS, supWS] at hcon
    exact hab hcon

theorem pyCanon_singleWS (raw : List Char) : singleWS (pyCanon raw) :=
  singleWS_map_sup _ (singleWS_subWS _)

theorem pyCanon_noSup (raw : List Char) : ∀ c ∈ pyCanon raw, supTr c = c := by
  intro c hc
  obtain ⟨c0, -, rfl⟩ := List.mem_map.mp hc
  exact sup_sup c0

theorem pyCanon_idem (raw : List Char) : pyCanon (pyCanon raw) = pyCanon raw := by
  show (subWS (pyStrip (pyCanon raw))).map supTr = pyCanon raw
  rw [pyStrip_fix _ (pyCanon_noLead raw) (pyCanon_noTrail raw)]
  rw [subWS_fix _ (pyCanon_singleWS raw)]
  exact map_id_of _ _ (pyCanon_noSup raw)

theorem takeWhile_all {α : Type} (p : α → Bool) :
    ∀ a b : List α, (∀ c ∈ a, p c = true) →
      (a ++ b).takeWhile p = a ++ b.takeWhile p := by
  intro a
  induction a with
  | nil => intro b _; rfl
  | cons x t ih =>
    intro b h
    simp only [List.cons_append, List.takeWhile_cons, h x (List.mem_cons_self x t), if_true]
    rw [ih b (fun c hc => h c (List.mem_cons_of_mem x hc))]

theorem dropWhile_all {α : Type} (p : α → Bool) :
    ∀ a b : List α, (∀ c ∈ a, p c = true) →
      (a ++ b).dropWhile p = b.dropWhile p := by
  intro a
  induction a with
  | nil => intro b _; rfl
  | cons x t ih =>
    intro b h
    simp only [List.cons_append, List.dropWhile_cons, h x (List.mem_cons_self x t), if_true]
    exact ih b (fun c hc => h c (List.mem_cons_of_mem x hc))

theorem takeWhile_of_all {α : Type} (p : α → Bool) (a : List α)
    (h : ∀ c ∈ a, p c = true) : a.takeWhile p = a := by
  have := takeWhile_all p a [] h
  simpa using this

theorem dropWhile_of_all {α : Type} (p : α → Bool) (a : List α)
    (h : ∀ c ∈ a, p c = true) : a.dropWhile p = [] := by
  have := dropWhile_all p a [] h
  simpa using this

theorem digit_props : ∀ c ∈ digitChars,
    isWS c = false ∧ supTr c = c ∧ isDigitA c = true ∧ isLetterA c = false := by decide

theorem lower_props : ∀ c ∈ lowerLetters,
    isWS c = false ∧ supTr c = c ∧ isDigitA c = false ∧ isLetterA c = true ∧
      asciiLower c = c := by decide

theorem upper_props : ∀ c ∈ upperLetters,
    isWS c = false ∧ supTr c = c ∧ isDigitA c = false ∧ isLetterA c = true ∧
      asciiLower c ∈ lowerLetters := by decide

theorem romanU_props : ∀ c ∈ (['I','V','X','L','C','D','M'] : List Char),
    isWS c = false ∧ supTr c = c ∧ isDigitA c = false ∧ isRomanChar c = true ∧
      asciiUpper c = c := by decide

theorem digit_mem (c : Char) (h : isDigitA c = true) : c ∈ digitChars := by
  simpa [isDigitA] using h

theorem letter_cases (c : Char) (h : isLetterA c = true) :
    c ∈ lowerLetters ∨ c ∈ upperLetters := by
  simpa [isLetterA] using h

theorem asciiLower_mem_lower (c : Char) (h : isLetterA c = true) :
    asciiLower c ∈ lowerLetters := by
  rcases letter_cases c h with h1 | h1
  · rw [(lower_props c h1).2.2.2.2]; exact h1
  · exact (upper_props c h1).2.2.2.2

theorem digitVal_le (c : Char) : digitVal c ≤ 9 := by
  unfold digitVal; split_ifs <;> omega

theorem digitChar_mem (n : Nat) (h : n < 10) : digitChar n ∈ digitChars := by
  interval_cases n <;> decide

theorem digitVal_digitChar (n : Nat) (h : n < 10) : digitVal (digitChar n) = n := by
  interval_cases n <;> decide

theorem natDigitsAux_all : ∀ f n, ∀ c ∈ natDigitsAux f n, c ∈ digitChars := by
  intro f
  induction f with
  | zero => intro n c hc; cases hc
  | succ f ih =>
    intro n c hc
    unfold natDigitsAux at hc
    by_cases h10 : n < 10
    · rw [if_pos h10] at hc
      rw [List.mem_singleton] at hc
      rw [hc]
      exact digitChar_mem n h10
    · rw [if_neg h10] at hc
      rcases List.mem_append.mp hc with h | h
      · exact ih _ c h
      · rw [List.mem_singleton] at h
        rw [h]
        exact digitChar_mem _ (Nat.mod_lt n (by omega))

theorem natDigitsAux_ne_nil (f n : Nat) (hf : 0 < f) : natDigitsAux f n ≠ [] := by
  cases f with
  | zero => omega
  | succ f =>
    unfold natDigitsAux
    by_cases h10 : n < 10
    · rw [if_pos h10]; simp
    · rw [if_neg h10]; simp

theorem natDigits_ne_nil (n : Nat) : natDigits n ≠ [] :=
  natDigitsAux_ne_nil (n + 1) n (Nat.succ_pos n)

theorem digitsVal_append (l : List Char) (c : Char) :
    digitsVal (l ++ [c]) = 10 * digitsVal l + digitVal c := by
  unfold digitsVal
  rw [List.foldl_append]
  simp [Nat.mul_comm]

theorem digitsVal_natDigitsAux : ∀ f n, n < f → digitsVal (natDigitsAux f n) = n := by
  intro f
  induction f with
  | zero => intro n h; omega
  | succ f ih =>
    intro n h
    unfold natDigitsAux
    by_cases h10 : n < 10
    · rw [if_pos h10]
      show digitsVal ([] ++ [digitChar n]) = n
      rw [digitsVal_append, digitVal_digitChar n h10]
      simp [digitsVal]
    · rw [if_neg h10]
      rw [digitsVal_append]
      rw [ih (n / 10) (by omega)]
      rw [digitVal_digitChar _ (Nat.mod_lt n (by omega))]
      omega

theorem digitsVal_natDigits (n : Nat) : digitsVal (natDigits n) = n :=
  digitsVal_natDigitsAux (n + 1) n (Nat.lt_succ_self n)

theorem natDigitsAux_length : ∀ f n k, n < 10 ^ k → 0 < k →
    (natDigitsAux f n).length ≤ k := by
  intro f
  induction f with
  | zero => intro n k _ _; simp [natDigitsAux]
  | succ f ih =>
    intro n k hn hk
    unfold natDigitsAux
    by_cases h10 : n < 10
    · rw [if_pos h10]; simpa using hk
    · rw [if_neg h10]
      cases k with
      | zero => omega
      | succ k' =>
        have hdiv : n / 10 < 10 ^ k' := by
          rw [Nat.div_lt_iff_lt_mul (by omega)]
          calc n < 10 ^ (k' + 1) := hn
            _ = 10 ^ k' * 10 := by rw [Nat.pow_succ]
        have hk' : 0 < k' := by
          by_contra h0
          have : k' = 0 := by omega
          subst this
          simp at hdiv
          omega
        have := ih (n / 10) k' hdiv hk'
        simp only [List.length_append, List.length_cons, List.length_nil]
        omega

theorem natDigits_length_le3 (n : Nat) (h : n < 1000) : (natDigits n).length ≤ 3 :=
  natDigitsAux_length (n + 1) n 3 (by norm_num; omega) (by norm_num)

theorem digitsVal_foldl_lt : ∀ (l : List Char) (a : Nat),
    l.foldl (fun a c => a * 10 + digitVal c) a < (a + 1) * 10 ^ l.length := by
  intro l
  induction l with
  | nil => intro a; simp
  | cons c t ih =>
    intro a
    simp only [List.foldl_cons, List.length_cons]
    calc t.foldl (fun a c => a * 10 + digitVal c) (a * 10 + digitVal c)
        < (a * 10 + digitVal c + 1) * 10 ^ t.length := ih _
      _ ≤ (a + 1) * 10 ^ (t.length + 1) := by
          have h9 : digitVal c ≤ 9 := digitVal_le c
          have : a * 10 + digitVal c + 1 ≤ (a + 1) * 10 := by omega
          calc (a * 10 + digitVal c + 1) * 10 ^ t.length
              ≤ (a + 1) * 10 * 10 ^ t.length := Nat.mul_le_mul_right _ this
            _ = (a + 1) * 10 ^ (t.length + 1) := by ring

theorem digitsVal_lt (l : List Char) : digitsVal l < 10 ^ l.length := by
  have := digitsVal_foldl_lt l 0
  simpa [digitsVal] using this

theorem digitsVal_lt_1000 (l : List Char) (h : l.length ≤ 3) : digitsVal l < 1000 := by
  calc digitsVal l < 10 ^ l.length := digitsVal_lt l
    _ ≤ 10 ^ 3 := Nat.pow_le_pow_right (by omega) h
    _ = 1000 := by norm_num

theorem mem_takeWhile {α : Type} (p : α → Bool) :
    ∀ l : List α, ∀ c ∈ l.takeWhile p, p c = true := by
  intro l
  induction l with
  | nil => intro c hc; cases hc
  | cons x t ih =>
    intro c hc
    rw [List.takeWhile_cons] at hc
    by_cases hx : p x
    · rw [if_pos hx] at hc
      rcases List.mem_cons.mp hc with h | h
      · rw [h]; exact hx
      · exact ih c h
    · rw [if_neg hx] at hc
      cases hc

/-- Output shape of the arabic-number regex match: the main group is a
nonempty digit run of at most three digits, the letter group is a letter,
and the tail group is a nonempty digit run of at most `tail_max` digits. -/
theorem matchArabic_shape (tm : Nat) (s d1 : List Char) (l : Option Char)
    (t : Option (List Char)) (h : matchArabic tm s = some (d1, l, t)) :
    d1 ≠ [] ∧ d1.length ≤ 3 ∧ (∀ c ∈ d1, c ∈ digitChars) ∧
      (∀ c, l = some c → isLetterA c = true) ∧
      (∀ f, t = some f → f ≠ [] ∧ f.length ≤ tm ∧ ∀ c ∈ f, c ∈ digitChars) := by
  simp only [matchArabic] at h
  split at h
  · cases h
  · rename_i h1
    split at h
    · split_ifs at h with h2 h3
      · injection h with h4
        simp only [Prod.mk.injEq] at h4
        obtain ⟨h5, h6, h7⟩ := h4
        subst h5; subst h6; subst h7
        refine ⟨h1, h2, fun c hc => digit_mem c (mem_takeWhile _ _ c hc), ?_, ?_⟩
        · intro c hc; cases hc
        · intro f hf; cases hf
      · injection h with h4
        simp only [Prod.mk.injEq] at h4
        obtain ⟨h5, h6, h7⟩ := h4
        subst h5; subst h6; subst h7
        refine ⟨?_, ?_, ?_, ?_, ?_⟩
        · intro hnil
          have hlen : min 3 (List.takeWhile isDigitA s).length = 0 := by
            rw [← List.length_take, hnil]
            rfl
          omega
        · rw [List.length_take]
          omega
        · intro c hc
          exact digit_mem c (mem_takeWhile _ _ c (List.mem_of_mem_take hc))
        · intro c hc; cases hc
        · intro f hf
          injection hf with hf2
          subst hf2
          refine ⟨?_, ?_, ?_⟩
          · intro hnil
            have hlen : (List.takeWhile isDigitA s).length - 3 = 0 := by
              rw [← List.length_drop, hnil]
              rfl
            omega
          · rw [List.length_drop]
            omega
          · intro c hc
            exact digit_mem c (mem_takeWhile _ _ c (List.mem_of_mem_drop hc))
    · rename_i c r2 heq
      split at h
      · split at h
        · rename_i h2 h3
          simp only [Bool.and_eq_true, Bool.or_eq_true, decide_eq_true_eq] at h3
          injection h with h4
          simp only [Prod.mk.injEq] at h4
          obtain ⟨h5, h6, h7⟩ := h4
          subst h5; subst h6; subst h7
          refine ⟨h1, h3.1.2, fun x hx => digit_mem x (mem_takeWhile _ _ x hx), ?_, ?_⟩
          · intro x hx
            injection hx with hx2
            subst hx2
            exact h2
          · intro f hf
            by_cases h8 : List.takeWhile isDigitA r2 = []
            · rw [if_pos h8] at hf; cases hf
            · rw [if_neg h8] at hf
              injection hf with hf2
              subst hf2
              refine ⟨h8, ?_, fun x hx => digit_mem x (mem_takeWhile _ _ x hx)⟩
              rcases h3.2 with h9 | h9
              · exact absurd h9 h8
              · exact h9
        · cases h
      · cases h

/-- Output shape of the roman-token regex match. -/
theorem matchRomanTok_shape (tm : Nat) (s r : List Char) (t : Option (List Char))
    (h : matchRomanTok tm s = some (r, t)) :
    r ≠ [] ∧ r.length ≤ 8 ∧ (∀ c ∈ r, isRomanChar c = true) ∧
      (∀ f, t = some f → f ≠ [] ∧ f.length ≤ tm ∧ ∀ c ∈ f, c ∈ digitChars) := by
  simp only [matchRomanTok] at h
  split at h
  · cases h
  · rename_i h1
    simp only [Bool.or_eq_true, decide_eq_true_eq, not_or, Nat.not_lt] at h1
    split at h
    · rename_i h2
      simp only [Bool.and_eq_true, Bool.or_eq_true, decide_eq_true_eq] at h2
      injection h with h5
      simp only [Prod.mk.injEq] at h5
      obtain ⟨h6, h7⟩ := h5
      subst h6; subst h7
      refine ⟨h1.1, by omega, fun c hc => mem_takeWhile _ _ c hc, ?_⟩
      intro f hf
      by_cases h8 : List.takeWhile isDigitA (List.dropWhile isRomanChar s) = []
      · rw [if_pos h8] at hf; cases hf
      · rw [if_neg h8] at hf
        injection hf with hf2
        subst hf2
        refine ⟨h8, ?_, fun c hc => digit_mem c (mem_takeWhile _ _ c hc)⟩
        rcases h2.2 with h9 | h9
        · exact absurd h9 h8
        · exact h9
    · cases h

/-- Output shape of the lone-digit footnote token. -/
theorem tokTail_shape (tm : Nat) (rest : List (List Char)) (f : List Char)
    (h : tokTail tm rest = some f) :
    f ≠ [] ∧ f.length ≤ tm ∧ ∀ c ∈ f, c ∈ digitChars := by
  simp only [tokTail] at h
  split at h
  · cases h
  · split_ifs at h with h7
    injection h with hf2
    subst hf2
    simp only [Bool.and_eq_true, decide_eq_true_eq, List.all_eq_true] at h7
    refine ⟨?_, h7.1.2, fun x hx => digit_mem x (h7.2 x hx)⟩
    intro hnil
    rw [hnil] at h7
    simp at h7

/-- Output shape of the letter/tail tokens of the token fallback. -/
theorem tokLetterTail_shape (tm : Nat) (rest : List (List Char)) :
    ((tokLetterTail tm rest).1 = [] ∨
      ∃ c, isLetterA c = true ∧ (tokLetterTail tm rest).1 = [asciiLower c]) ∧
      (∀ f, (tokLetterTail tm rest).2 = some f →
        f ≠ [] ∧ f.length ≤ tm ∧ ∀ c ∈ f, c ∈ digitChars) := by
  cases rest with
  | nil => exact ⟨Or.inl rfl, fun f hf => by cases hf⟩
  | cons t1 rest2 =>
    simp only [tokLetterTail]
    split_ifs with h2 h3
    · simp only [Bool.and_eq_true, decide_eq_true_eq, List.all_eq_true] at h2
      obtain ⟨c, hc⟩ := List.length_eq_one.mp h2.1
      refine ⟨?_, fun f hf => tokTail_shape tm rest2 f hf⟩
      refine Or.inr ⟨c, ?_, ?_⟩
      · exact h2.2 c (by rw [hc]; exact List.mem_singleton_self c)
      · rw [hc]; rfl
    · simp only [Bool.and_eq_true, decide_eq_true_eq, List.all_eq_true] at h3
      refine ⟨Or.inl rfl, ?_⟩
      intro f hf
      injection hf with hf2
      subst hf2
      refine ⟨?_, h3.1.2, fun x hx => digit_mem x (h3.2 x hx)⟩
      intro hnil
      rw [hnil] at h3
      simp at h3
    · exact ⟨Or.inl rfl, fun f hf => by cases hf⟩

/-- Output shape of the token-fallback step: the footnote, when present, is a
nonempty digit run of at most `tail_max` digits, and the number is either the
tidied arabic shape or the tidied roman shape. -/
theorem tokenFallback_shape (tm : Nat) (toks : List (List Char)) (num : List Char)
    (t : Option (List Char)) (h : tokenFallback tm toks = some (num, t)) :
    (∀ f, t = some f → f ≠ [] ∧ f.length ≤ tm ∧ ∀ c ∈ f, c ∈ digitChars) ∧
      ((∃ v l, num = tidyPfx ++ ' ' :: (natDigits v ++ l) ∧ v < 1000 ∧
          (l = [] ∨ ∃ c, isLetterA c = true ∧ l = [asciiLower c])) ∨
        ∃ r, is_roman r = true ∧ num = tidyPfx ++ ' ' :: List.map asciiUpper r) := by
  simp only [tokenFallback] at h
  split at h
  · cases h
  · rename_i t0 rest
    split_ifs at h with h1 h2
    · injection h with h4
      simp only [Prod.mk.injEq] at h4
      obtain ⟨h5, h6⟩ := h4
      subst h6
      simp only [Bool.and_eq_true, decide_eq_true_eq, List.all_eq_true] at h1
      refine ⟨fun f hf => (tokLetterTail_shape tm rest).2 f hf, Or.inl ?_⟩
      exact ⟨digitsVal t0, (tokLetterTail tm rest).1, h5.symm,
        digitsVal_lt_1000 t0 h1.1.2, (tokLetterTail_shape tm rest).1⟩
    · injection h with h4
      simp only [Prod.mk.injEq] at h4
      obtain ⟨h5, h6⟩ := h4
      subst h6
      exact ⟨fun f hf => tokTail_shape tm rest f hf, Or.inr ⟨t0, h2, h5.symm⟩⟩

theorem norm_nil (tm : Nat) : normalize_article_number [] tm = ([], none) := rfl

theorem norm_noart (raw : List Char) (tm : Nat) (hraw : raw ≠ [])
    (hart : matchArt (pyCanon raw) = none) :
    normalize_article_number raw tm = (pyCanon raw, none) := by
  simp only [normalize_article_number, if_neg hraw, hart]

theorem norm_arabic (raw : List Char) (tm : Nat) (hraw : raw ≠ [])
    (rest d1 : List Char) (l : Option Char) (t : Option (List Char))
    (hart : matchArt (pyCanon raw) = some rest)
    (hara : matchArabic tm (rest.filter (fun c => c ≠ ' ')) = some (d1, l, t)) :
    normalize_article_number raw tm =
      (tidyPfx ++ ' ' :: (natDigits (digitsVal d1) ++
        (match l with | some c => [asciiLower c] | none => [])), t) := by
  simp only [normalize_article_number, if_neg hraw, hart, hara]
  cases l <;> rfl

theorem norm_roman (raw : List Char) (tm : Nat) (hraw : raw ≠ [])
    (rest r : List Char) (t : Option (List Char))
    (hart : matchArt (pyCanon raw) = some rest)
    (hara : matchArabic tm (rest.filter (fun c => c ≠ ' ')) = none)
    (hrom : matchRomanTok tm (rest.filter (fun c => c ≠ ' ')) = some (r, t))
    (hir : is_roman r = true) :
    normalize_article_number raw tm = (tidyPfx ++ ' ' :: r.map asciiUpper, t) := by
  simp only [normalize_article_number, if_neg hraw, hart, hara, hrom, hir, if_true]

theorem norm_tokfb (raw : List Char) (tm : Nat) (hraw : raw ≠ [])
    (rest : List Char) (res : List Char × Option (List Char))
    (hart : matchArt (pyCanon raw) = some rest)
    (hara : matchArabic tm (rest.filter (fun c => c ≠ ' ')) = none)
    (hrom : matchRomanTok tm (rest.filter (fun c => c ≠ ' ')) = none ∨
      ∃ r t, matchRomanTok tm (rest.filter (fun c => c ≠ ' ')) = some (r, t) ∧
        is_roman r = false)
    (htok : tokenFallback tm (alnumToks (rest.map supTr)) = some res) :
    normalize_article_number raw tm = res := by
  rcases hrom with hrom | ⟨r, t, hrom, hir⟩
  · simp only [normalize_article_number, if_neg hraw, hart, hara, hrom, htok]
  · simp only [normalize_article_number, if_neg hraw, hart, hara, hrom, hir, htok,
      Bool.false_eq_true, if_false]

theorem norm_ultimate (raw : List Char) (tm : Nat) (hraw : raw ≠ [])
    (rest : List Char)
    (hart : matchArt (pyCanon raw) = some rest)
    (hara : matchArabic tm (rest.filter (fun c => c ≠ ' ')) = none)
    (hrom : matchRomanTok tm (rest.filter (fun c => c ≠ ' ')) = none ∨
      ∃ r t, matchRomanTok tm (rest.filter (fun c => c ≠ ' ')) = some (r, t) ∧
        is_roman r = false)
    (htok : tokenFallback tm (alnumToks (rest.map supTr)) = none) :
    normalize_article_number raw tm = (tidyPfx ++ ' ' :: pyStrip rest, none) := by
  rcases hrom with hrom | ⟨r, t, hrom, hir⟩
  · simp only [normalize_article_number, if_neg hraw, hart, hara, hrom, htok]
  · simp only [normalize_article_number, if_neg hraw, hart, hara, hrom, hir, htok,
      Bool.false_eq_true, if_false]

theorem chain'_of_all (l : List Char) (h : ∀ c ∈ l, isWS c = false) :
    List.Chain' (fun a b => ¬(isWS a = true ∧ isWS b = true)) l := by
  induction l with
  | nil => exact List.chain'_nil
  | cons x t ih =>
    rw [List.chain'_cons']
    refine ⟨?_, ih (fun c hc => h c (List.mem_cons_of_mem x hc))⟩
    intro y _ hcon
    rw [h x (List.mem_cons_self x t)] at hcon
    exact absurd hcon.1 (by simp)

theorem noLead_of_all (l : List Char) (h : ∀ c ∈ l, isWS c = false) : noLeadWS l := by
  intro c hc
  exact h c (List.mem_of_mem_head? hc)

theorem noTrail_of_all (l : List Char) (h : ∀ c ∈ l, isWS c = false) : noTrailWS l := by
  intro c hc
  obtain ⟨hne, heq⟩ := List.mem_getLast?_eq_getLast (Option.mem_def.mpr hc)
  rw [heq]
  exact h _ (List.getLast_mem hne)

theorem singleWS_of_all (l : List Char) (h : ∀ c ∈ l, isWS c = false) : singleWS l := by
  refine ⟨?_, chain'_of_all l h⟩
  intro c hc hw
  rw [h c hc] at hw
  cases hw

theorem noLead_art (r2 : List Char) : noLeadWS (tidyPfx ++ ' ' :: r2) := by
  intro c hc
  have h0 : (tidyPfx ++ ' ' :: r2).head? = some 'A' := rfl
  rw [h0] at hc
  injection hc with h1
  rw [← h1]
  decide

theorem noTrail_art (r2 : List Char) (htrail : noTrailWS r2) (h2 : r2 ≠ []) :
    noTrailWS (tidyPfx ++ ' ' :: r2) := by
  intro c hc
  apply htrail c
  have h5 : (tidyPfx ++ ' ' :: r2).getLast? = r2.getLast? := by
    show ('A' :: 'r' :: 't' :: '.' :: ' ' :: r2).getLast? = r2.getLast?
    rw [getLast?_cons_ne 'A' _ (by simp), getLast?_cons_ne 'r' _ (by simp),
      getLast?_cons_ne 't' _ (by simp), getLast?_cons_ne '.' _ (by simp),
      getLast?_cons_ne ' ' _ h2]
  rw [h5] at hc
  exact hc

theorem noSup_art (r2 : List Char) (hsup : ∀ c ∈ r2, supTr c = c) :
    ∀ c ∈ tidyPfx ++ ' ' :: r2, supTr c = c := by
  intro c hc
  rcases List.mem_append.mp hc with h | h
  · have hp : ∀ x ∈ tidyPfx, supTr x = x := by decide
    exact hp c h
  · rcases List.mem_cons.mp h with h | h
    · rw [h]; decide
    · exact hsup c h

theorem singleWS_art (r2 : List Char) (hlead : noLeadWS r2) (hsingle : singleWS r2) :
    singleWS (tidyPfx ++ ' ' :: r2) := by
  have hR : ∀ (a : Char), isWS a = false →
      ∀ y : Char, ¬(isWS a = true ∧ isWS y = true) := by
    intro a ha y hcon
    rw [ha] at hcon
    exact absurd hcon.1 (by simp)
  constructor
  · intro c hc hw
    rcases List.mem_append.mp hc with h | h
    · have hp : ∀ x ∈ tidyPfx, isWS x = false := by decide
      rw [hp c h] at hw
      cases hw
    · rcases List.mem_cons.mp h with h | h
      · exact h
      · exact hsingle.1 c h hw
  · show List.Chain' _ ('A' :: 'r' :: 't' :: '.' :: ' ' :: r2)
    rw [List.chain'_cons']
    refine ⟨fun y _ => hR 'A' (by decide) y, ?_⟩
    rw [List.chain'_cons']
    refine ⟨fun y _ => hR 'r' (by decide) y, ?_⟩
    rw [List.chain'_cons']
    refine ⟨fun y _ => hR 't' (by decide) y, ?_⟩
    rw [List.chain'_cons']
    refine ⟨fun y _ => hR '.' (by decide) y, ?_⟩
    rw [List.chain'_cons']
    refine ⟨?_, hsingle.2⟩
    intro y hy hcon
    rw [hlead y (Option.mem_def.mp hy)] at hcon
    exact absurd hcon.2 (by simp)

/-- A tidied string `"Art. " ++ r2` with a canonical remainder is a fixed
point of the canonicalisation prefix of `normalize_article_number`. -/
theorem canon_art (r2 : List Char) (h2 : r2 ≠ []) (hlead : noLeadWS r2)
    (htrail : noTrailWS r2) (hsingle : singleWS r2)
    (hsup : ∀ c ∈ r2, supTr c = c) :
    pyCanon (tidyPfx ++ ' ' :: r2) = tidyPfx ++ ' ' :: r2 := by
  show (subWS (pyStrip _)).map supTr = _
  rw [pyStrip_fix _ (noLead_art r2) (noTrail_art r2 htrail h2)]
  rw [subWS_fix _ (singleWS_art r2 hlead hsingle)]
  exact map_id_of _ _ (noSup_art r2 hsup)

/-- `matchArt` recovers exactly the remainder from a tidied string. -/
theorem matchArt_art (r2 : List Char) (hlead : noLeadWS r2) :
    matchArt (tidyPfx ++ ' ' :: r2) = some r2 := by
  have h1 : List.dropWhile isWS ('A' :: 'r' :: 't' :: '.' :: ' ' :: r2) =
      'A' :: 'r' :: 't' :: '.' :: ' ' :: r2 := by
    rw [List.dropWhile_cons, if_neg (by decide)]
  have hci : (ciIs 'A' 'a' && ciIs 'r' 'r' && ciIs 't' 't') = true := by decide
  show matchArt ('A' :: 'r' :: 't' :: '.' :: ' ' :: r2) = some r2
  simp only [matchArt, h1, hci, if_true]
  rw [List.dropWhile_cons, if_pos (by decide)]
  rw [dropWhile_of_noLead r2 hlead]

theorem letter_not_digit (c : Char) (h : isLetterA c = true) : isDigitA c = false := by
  rcases letter_cases c h with h1 | h1
  · exact (lower_props c h1).2.2.1
  · exact (upper_props c h1).2.2.1

theorem ne_space_of_not_WS (c : Char) (h : isWS c = false) : c ≠ ' ' := by
  intro he
  rw [he] at h
  cases h

theorem roman_not_digit (c : Char) (h : isRomanChar c = true) : isDigitA c = false := by
  have h1 : c ∈ romanChars := by simpa [isRomanChar] using h
  have h2 : ∀ x ∈ romanChars, isDigitA x = false := by decide
  exact h2 c h1

theorem matchArabic_digits (tm : Nat) (d : List Char) (hd : d ≠ [])
    (hdig : ∀ c ∈ d, isDigitA c = true) (hlen : d.length ≤ 3) :
    matchArabic tm d = some (d, none, none) := by
  have h1 : d.takeWhile isDigitA = d := takeWhile_of_all _ _ hdig
  have h2 : d.dropWhile isDigitA = [] := dropWhile_of_all _ _ hdig
  simp [matchArabic, h1, h2, hd, hlen]

theorem matchArabic_digits_letter (tm : Nat) (d : List Char) (x : Char) (hd : d ≠ [])
    (hdig : ∀ c ∈ d, isDigitA c = true) (hlen : d.length ≤ 3)
    (hx : isLetterA x = true) :
    matchArabic tm (d ++ [x]) = some (d, some x, none) := by
  have hxd : ¬isDigitA x = true := by
    rw [letter_not_digit x hx]
    simp
  have h1 : (d ++ [x]).takeWhile isDigitA = d := by
    rw [takeWhile_all _ _ _ hdig, List.takeWhile_cons, if_neg hxd]
    exact List.append_nil d
  have h2 : (d ++ [x]).dropWhile isDigitA = [x] := by
    rw [dropWhile_all _ _ _ hdig, List.dropWhile_cons, if_neg hxd]
  simp [matchArabic, h1, h2, hd, hlen, hx]

theorem matchArabic_none (tm : Nat) (s : List Char)
    (h : s.takeWhile isDigitA = []) : matchArabic tm s = none := by
  simp [matchArabic, h]

theorem matchRomanTok_roman (tm : Nat) (R : List Char) (hR : R ≠ [])
    (hlen : R.length ≤ 8) (hrc : ∀ c ∈ R, isRomanChar c = true) :
    matchRomanTok tm R = some (R, none) := by
  have h1 : R.takeWhile isRomanChar = R := takeWhile_of_all _ _ hrc
  have h2 : R.dropWhile isRomanChar = [] := dropWhile_of_all _ _ hrc
  have hgt : ¬R.length > 8 := by omega
  simp [matchRomanTok, h1, h2, hR, hgt]

theorem filter_space_of_all (l : List Char) (h : ∀ c ∈ l, isWS c = false) :
    l.filter (fun c => c ≠ ' ') = l :=
  List.filter_eq_self.mpr fun a ha => decide_eq_true (ne_space_of_not_WS a (h a ha))

/-- Re-normalizing a tidied arabic article number returns it unchanged with no
footnote. -/
theorem renorm_arabic (tm : Nat) (v : Nat) (l : List Char) (hv : v < 1000)
    (hl : l = [] ∨ ∃ c, isLetterA c = true ∧ l = [asciiLower c]) :
    normalize_article_number (tidyPfx ++ ' ' :: (natDigits v ++ l)) tm =
      (tidyPfx ++ ' ' :: (natDigits v ++ l), none) := by
  have hnumd : ∀ c ∈ natDigits v, c ∈ digitChars := fun c hc => natDigitsAux_all _ _ c hc
  have hWS : ∀ c ∈ natDigits v ++ l, isWS c = false := by
    intro c hc
    rcases List.mem_append.mp hc with h | h
    · exact (digit_props c (hnumd c h)).1
    · rcases hl with rfl | ⟨x, hx, rfl⟩
      · cases h
      · rw [List.mem_singleton] at h
        rw [h]
        exact (lower_props _ (asciiLower_mem_lower x hx)).1
  have hsup : ∀ c ∈ natDigits v ++ l, supTr c = c := by
    intro c hc
    rcases List.mem_append.mp hc with h | h
    · exact (digit_props c (hnumd c h)).2.1
    · rcases hl with rfl | ⟨x, hx, rfl⟩
      · cases h
      · rw [List.mem_singleton] at h
        rw [h]
        exact (lower_props _ (asciiLower_mem_lower x hx)).2.1
  have h2 : natDigits v ++ l ≠ [] := by
    intro hnil
    exact natDigits_ne_nil v (List.append_eq_nil.mp hnil).1
  have hraw : tidyPfx ++ ' ' :: (natDigits v ++ l) ≠ [] := by simp
  have hcanon := canon_art _ h2 (noLead_of_all _ hWS) (noTrail_of_all _ hWS)
    (singleWS_of_all _ hWS) hsup
  have hart : matchArt (pyCanon (tidyPfx ++ ' ' :: (natDigits v ++ l))) =
      some (natDigits v ++ l) := by
    rw [hcanon]
    exact matchArt_art _ (noLead_of_all _ hWS)
  have hfil : (natDigits v ++ l).filter (fun c => c ≠ ' ') = natDigits v ++ l :=
    filter_space_of_all _ hWS
  have hdig : ∀ c ∈ natDigits v, isDigitA c = true :=
    fun c hc => (digit_props c (hnumd c hc)).2.2.1
  have hlen : (natDigits v).length ≤ 3 := natDigits_length_le3 v hv
  rcases hl with rfl | ⟨x, hx, rfl⟩
  · have hara : matchArabic tm ((natDigits v ++ []).filter (fun c => c ≠ ' ')) =
        some (natDigits v, none, none) := by
      rw [hfil, List.append_nil]
      exact matchArabic_digits tm _ (natDigits_ne_nil v) hdig hlen
    rw [norm_arabic _ tm hraw _ _ _ _ hart hara]
    rw [digitsVal_natDigits]
  · have hara : matchArabic tm
        ((natDigits v ++ [asciiLower x]).filter (fun c => c ≠ ' ')) =
        some (natDigits v, some (asciiLower x), none) := by
      rw [hfil]
      exact matchArabic_digits_letter tm _ _ (natDigits_ne_nil v) hdig hlen
        ((lower_props _ (asciiLower_mem_lower x hx)).2.2.2.1)
    rw [norm_arabic _ tm hraw _ _ _ _ hart hara]
    rw [digitsVal_natDigits]
    have hll : asciiLower (asciiLower x) = asciiLower x :=
      (lower_props _ (asciiLower_mem_lower x hx)).2.2.2.2
    show (tidyPfx ++ ' ' :: (natDigits v ++ [asciiLower (asciiLower x)]),
        (none : Option (List Char))) =
      (tidyPfx ++ ' ' :: (natDigits v ++ [asciiLower x]), none)
    rw [hll]

/-- Re-normalizing a tidied roman article number returns it unchanged with no
footnote. -/
theorem renorm_roman (tm : Nat) (r : List Char) (hr : is_roman r = true) :
    normalize_article_number (tidyPfx ++ ' ' :: r.map asciiUpper) tm =
      (tidyPfx ++ ' ' :: r.map asciiUpper, none) := by
  have hr' := hr
  simp only [is_roman, Bool.and_eq_true, decide_eq_true_eq, List.all_eq_true,
    ne_eq] at hr'
  have hne : r.map asciiUpper ≠ [] := hr'.1.1.1
  have hlen8 : (r.map asciiUpper).length ≤ 8 := hr'.1.1.2
  have hmem : ∀ c ∈ r.map asciiUpper, c ∈ (['I','V','X','L','C','D','M'] : List Char) := by
    intro c hc
    have := hr'.1.2 c hc
    simpa using this
  have hWS : ∀ c ∈ r.map asciiUpper, isWS c = false :=
    fun c hc => (romanU_props c (hmem c hc)).1
  have hsup : ∀ c ∈ r.map asciiUpper, supTr c = c :=
    fun c hc => (romanU_props c (hmem c hc)).2.1
  have hrc : ∀ c ∈ r.map asciiUpper, isRomanChar c = true :=
    fun c hc => (romanU_props c (hmem c hc)).2.2.2.1
  have hfix : (r.map asciiUpper).map asciiUpper = r.map asciiUpper :=
    map_id_of _ _ (fun c hc => (romanU_props c (hmem c hc)).2.2.2.2)
  have hraw : tidyPfx ++ ' ' :: r.map asciiUpper ≠ [] := by simp
  have hcanon := canon_art _ hne (noLead_of_all _ hWS) (noTrail_of_all _ hWS)
    (singleWS_of_all _ hWS) hsup
  have hart : matchArt (pyCanon (tidyPfx ++ ' ' :: r.map asciiUpper)) =
      some (r.map asciiUpper) := by
    rw [hcanon]
    exact matchArt_art _ (noLead_of_all _ hWS)
  have hfil : (r.map asciiUpper).filter (fun c => c ≠ ' ') = r.map asciiUpper :=
    filter_space_of_all _ hWS
  have htwd : (r.map asciiUpper).takeWhile isDigitA = [] := by
    cases hu : r.map asciiUpper with
    | nil => rfl
    | cons c t =>
      rw [List.takeWhile_cons, if_neg]
      rw [roman_not_digit c (hrc c (by rw [hu]; exact List.mem_cons_self c t))]
      simp
  have hara : matchArabic tm ((r.map asciiUpper).filter (fun c => c ≠ ' ')) = none := by
    rw [hfil]
    exact matchArabic_none tm _ htwd
  have hrom : matchRomanTok tm ((r.map asciiUpper).filter (fun c => c ≠ ' ')) =
      some (r.map asciiUpper, none) := by
    rw [hfil]
    exact matchRomanTok_roman tm _ hne hlen8 hrc
  have hiR : is_roman (r.map asciiUpper) = true := by
    unfold is_roman
    rw [hfix]
    unfold is_roman at hr
    exact hr
  rw [norm_roman _ tm hraw _ _ _ hart hara hrom hiR]
  rw [hfix]

theorem matchArt_noLead (s rest : List Char) (h : matchArt s = some rest) :
    noLeadWS rest := by
  simp only [matchArt] at h
  split at h
  · split_ifs at h with h1
    split at h
    · injection h with h2
      subst h2
      intro c hc
      exact head?_dropWhile_false isWS _ c hc
    · injection h with h2
      subst h2
      intro c hc
      exact head?_dropWhile_false isWS _ c hc
  · cases h

theorem matchArt_suffix (s rest : List Char) (h : matchArt s = some rest) :
    ∃ j, rest = s.drop j := by
  have hdw : s.dropWhile isWS = s.drop (s.takeWhile isWS).length :=
    dropWhile_eq_drop isWS s
  simp only [matchArt] at h
  split at h
  · rename_i a r t rest1 heq
    split_ifs at h with h1
    split at h
    · rename_i X
      injection h with h2
      have h5 : (List.dropWhile isWS s).drop 4 = X := by
        rw [heq]
        rfl
      refine ⟨(s.takeWhile isWS).length + 4 + (X.takeWhile isWS).length, ?_⟩
      rw [← h2, dropWhile_eq_drop isWS X, ← h5, hdw, List.drop_drop, List.drop_drop]
      congr 1
      omega
    · injection h with h2
      have h5 : (List.dropWhile isWS s).drop 3 = rest1 := by
        rw [heq]
        rfl
      refine ⟨(s.takeWhile isWS).length + 3 + (rest1.takeWhile isWS).length, ?_⟩
      rw [← h2, dropWhile_eq_drop isWS rest1, ← h5, hdw, List.drop_drop, List.drop_drop]
      congr 1
      omega
  · cases h

theorem singleWS_drop (s : List Char) (j : Nat) (h : singleWS s) :
    singleWS (s.drop j) :=
  ⟨fun c hc hw => h.1 c (List.mem_of_mem_drop hc) hw, h.2.drop j⟩

/-- The remainder group of `matchArt` inherits the canonical-shape invariants
of the whitespace-normalized input. -/
theorem matchArt_props (s rest : List Char) (h : matchArt s = some rest)
    (hT : noTrailWS s) (hS : singleWS s) (hP : ∀ c ∈ s, supTr c = c) :
    noLeadWS rest ∧ noTrailWS rest ∧ singleWS rest ∧ ∀ c ∈ rest, supTr c = c := by
  obtain ⟨j, hj⟩ := matchArt_suffix s rest h
  refine ⟨matchArt_noLead s rest h, ?_, ?_, ?_⟩
  · intro c hc
    rw [hj] at hc
    exact hT c (getLast?_drop_some s j c hc)
  · rw [hj]
    exact singleWS_drop s j hS
  · intro c hc
    rw [hj] at hc
    exact hP c (List.mem_of_mem_drop hc)

/-- Re-normalizing the ultimate-fallback output returns it unchanged with no
footnote. -/
theorem renorm_fallback (tm : Nat) (rest : List Char)
    (hlead : noLeadWS rest) (htrail : noTrailWS rest) (hsingle : singleWS rest)
    (hsup : ∀ c ∈ rest, supTr c = c)
    (hara : matchArabic tm (rest.filter (fun c => c ≠ ' ')) = none)
    (hrom : matchRomanTok tm (rest.filter (fun c => c ≠ ' ')) = none ∨
      ∃ r t, matchRomanTok tm (rest.filter (fun c => c ≠ ' ')) = some (r, t) ∧
        is_roman r = false)
    (htok : tokenFallback tm (alnumToks (rest.map supTr)) = none) :
    normalize_article_number (tidyPfx ++ ' ' :: pyStrip rest) tm =
      (tidyPfx ++ ' ' :: pyStrip rest, none) := by
  by_cases hnil : rest = []
  · subst hnil
    rfl
  · have hstrip : pyStrip rest = rest := pyStrip_fix rest hlead htrail
    have hraw : tidyPfx ++ ' ' :: rest ≠ [] := by simp
    have hcanon := canon_art rest hnil hlead htrail hsingle hsup
    have hart : matchArt (pyCanon (tidyPfx ++ ' ' :: rest)) = some rest := by
      rw [hcanon]
      exact matchArt_art rest hlead
    rw [hstrip, norm_ultimate _ tm hraw rest hart hara hrom htok, hstrip]

theorem renorm_after_roman_fail (raw : List Char) (tm : Nat) (hraw : raw ≠ [])
    (rest : List Char)
    (hart : matchArt (pyCanon raw) = some rest)
    (hlead : noLeadWS rest) (htrail : noTrailWS rest) (hsingle : singleWS rest)
    (hsup : ∀ c ∈ rest, supTr c = c)
    (hara : matchArabic tm (rest.filter (fun c => c ≠ ' ')) = none)
    (hromd : matchRomanTok tm (rest.filter (fun c => c ≠ ' ')) = none ∨
      ∃ r t, matchRomanTok tm (rest.filter (fun c => c ≠ ' ')) = some (r, t) ∧
        is_roman r = false) :
    normalize_article_number ((normalize_article_number raw tm).1) tm =
      ((normalize_article_number raw tm).1, none) := by
  cases htok : tokenFallback tm (alnumToks (rest.map supTr)) with
  | some res =>
    obtain ⟨num, t2⟩ := res
    rw [norm_tokfb raw tm hraw rest (num, t2) hart hara hromd htok]
    obtain ⟨-, hshape⟩ := tokenFallback_shape tm _ _ _ htok
    rcases hshape with ⟨v, l2, hnum, hv, hl2⟩ | ⟨r2, hir2, hnum⟩
    · show normalize_article_number num tm = (num, none)
      rw [hnum]
      exact renorm_arabic tm v l2 hv hl2
    · show normalize_article_number num tm = (num, none)
      rw [hnum]
      exact renorm_roman tm r2 hir2
  | none =>
    rw [norm_ultimate raw tm hraw rest hart hara hromd htok]
    exact renorm_fallback tm rest hlead htrail hsingle hsup hara hromd htok

/-- C1.  The idempotence that actually holds of `normalize_article_number`:
the returned canonical number is a fixed point — re-normalizing it returns it
unchanged with no footnote (for every input and every tail bound).  The
spec's literal equation `normalize(normalize(x).number) == normalize(x)`
fails because the footnote of the first pass is dropped
(see `C1_counterexample`). -/
theorem C1_number_idempotent (raw : List Char) (tm : Nat) :
    normalize_article_number ((normalize_article_number raw tm).1) tm =
      ((normalize_article_number raw tm).1, none) := by
  by_cases hraw : raw = []
  · subst hraw
    rfl
  · have hT : noTrailWS (pyCanon raw) := pyCanon_noTrail raw
    have hS : singleWS (pyCanon raw) := pyCanon_singleWS raw
    have hP : ∀ c ∈ pyCanon raw, supTr c = c := pyCanon_noSup raw
    cases hart : matchArt (pyCanon raw) with
    | none =>
      rw [norm_noart raw tm hraw hart]
      show normalize_article_number (pyCanon raw) tm = (pyCanon raw, none)
      by_cases hc : pyCanon raw = []
      · rw [hc]
        rfl
      · have h2 := norm_noart (pyCanon raw) tm hc
          (by rw [pyCanon_idem raw]; exact hart)
        rw [h2, pyCanon_idem raw]
    | some rest =>
      obtain ⟨hlead, htrail, hsingle, hsup⟩ := matchArt_props _ _ hart hT hS hP
      cases hara : matchArabic tm (rest.filter (fun c => c ≠ ' ')) with
      | some trip =>
        obtain ⟨d1, l, t⟩ := trip
        rw [norm_arabic raw tm hraw rest d1 l t hart hara]
        obtain ⟨hd1, hlen3, hdig, hlet, -⟩ := matchArabic_shape tm _ _ _ _ hara
        have hv : digitsVal d1 < 1000 := digitsVal_lt_1000 d1 hlen3
        cases l with
        | none =>
          exact renorm_arabic tm (digitsVal d1) [] hv (Or.inl rfl)
        | some c =>
          exact renorm_arabic tm (digitsVal d1) [asciiLower c] hv
            (Or.inr ⟨c, hlet c rfl, rfl⟩)
      | none =>
        cases hrom : matchRomanTok tm (rest.filter (fun c => c ≠ ' ')) with
        | some pr =>
          obtain ⟨r, t⟩ := pr
          by_cases hir : is_roman r = true
          · rw [norm_roman raw tm hraw rest r t hart hara hrom hir]
            exact renorm_roman tm r hir
          · have hir2 : is_roman r = false := by
              cases hb : is_roman r
              · rfl
              · exact absurd hb hir
            exact renorm_after_roman_fail raw tm hraw rest hart hlead htrail
              hsingle hsup hara (Or.inr ⟨r, t, hrom, hir2⟩)
        | none =>
          exact renorm_after_roman_fail raw tm hraw rest hart hlead htrail
            hsingle hsup hara (Or.inl hrom)

theorem digits_all (f : List Char) (h : ∀ c ∈ f, c ∈ digitChars) :
    f.all isDigitA = true :=
  List.all_eq_true.mpr fun c hc => (digit_props c (h c hc)).2.2.1

theorem c10_fallback (raw : List Char) (tm : Nat) (hraw : raw ≠ [])
    (rest : List Char)
    (hart : matchArt (pyCanon raw) = some rest)
    (hara : matchArabic tm (rest.filter (fun c => c ≠ ' ')) = none)
    (hromd : matchRomanTok tm (rest.filter (fun c => c ≠ ' ')) = none ∨
      ∃ r t, matchRomanTok tm (rest.filter (fun c => c ≠ ' ')) = some (r, t) ∧
        is_roman r = false) :
    (∀ f, (normalize_article_number raw tm).2 = some f →
      f ≠ [] ∧ f.length ≤ tm ∧ f.all isDigitA = true) ∧
      ∃ r2, (normalize_article_number raw tm).1 = tidyPfx ++ ' ' :: r2 := by
  cases htok : tokenFallback tm (alnumToks (rest.map supTr)) with
  | some res =>
    obtain ⟨num, t2⟩ := res
    rw [norm_tokfb raw tm hraw rest (num, t2) hart hara hromd htok]
    obtain ⟨htail, hshape⟩ := tokenFallback_shape tm _ _ _ htok
    refine ⟨?_, ?_⟩
    · intro f hf
      obtain ⟨h1, h2, h3⟩ := htail f hf
      exact ⟨h1, h2, digits_all f h3⟩
    · rcases hshape with ⟨v, l2, hnum, -, -⟩ | ⟨r2, -, hnum⟩
      · exact ⟨_, hnum⟩
      · exact ⟨_, hnum⟩
  | none =>
    rw [norm_ultimate raw tm hraw rest hart hara hromd htok]
    refine ⟨?_, ⟨pyStrip rest, rfl⟩⟩
    intro f hf
    cases hf

/-- C10.  Invariants of `normalize_article_number`, for every input and every
tail bound: a returned footnote is a nonempty string of at most `tail_max`
ASCII decimal digits, and whenever the input canonicalizes to an
`art`-prefixed string (the condition the code tests), the returned number
starts with exactly the tidied prefix `"Art. "`. -/
theorem C10_footnote_and_prefix (raw : List Char) (tm : Nat) :
    (∀ f, (normalize_article_number raw tm).2 = some f →
      f ≠ [] ∧ f.length ≤ tm ∧ f.all isDigitA = true) ∧
    (matchArt (pyCanon raw) ≠ none →
      ∃ r2, (normalize_article_number raw tm).1 = tidyPfx ++ ' ' :: r2) := by
  by_cases hraw : raw = []
  · subst hraw
    refine ⟨?_, ?_⟩
    · intro f hf
      cases hf
    · intro hne
      exact absurd rfl hne
  · cases hart : matchArt (pyCanon raw) with
    | none =>
      rw [norm_noart raw tm hraw hart]
      refine ⟨?_, fun hne => absurd rfl hne⟩
      intro f hf
      cases hf
    | some rest =>
      cases hara : matchArabic tm (rest.filter (fun c => c ≠ ' ')) with
      | some trip =>
        obtain ⟨d1, l, t⟩ := trip
        rw [norm_arabic raw tm hraw rest d1 l t hart hara]
        obtain ⟨-, -, -, -, htail⟩ := matchArabic_shape tm _ _ _ _ hara
        refine ⟨?_, fun _ => ⟨_, rfl⟩⟩
        intro f hf
        obtain ⟨h1, h2, h3⟩ := htail f hf
        exact ⟨h1, h2, digits_all f h3⟩
      | none =>
        cases hrom : matchRomanTok tm (rest.filter (fun c => c ≠ ' ')) with
        | some pr =>
          obtain ⟨r, t⟩ := pr
          by_cases hir : is_roman r = true
          · rw [norm_roman raw tm hraw rest r t hart hara hrom hir]
            obtain ⟨-, -, -, htail⟩ := matchRomanTok_shape tm _ _ _ hrom
            refine ⟨?_, fun _ => ⟨_, rfl⟩⟩
            intro f hf
            obtain ⟨h1, h2, h3⟩ := htail f hf
            exact ⟨h1, h2, digits_all f h3⟩
          · have hir2 : is_roman r = false := by
              cases hb : is_roman r
              · rfl
              · exact absurd hb hir
            have hc10 := c10_fallback raw tm hraw rest hart hara
              (Or.inr ⟨r, t, hrom, hir2⟩)
            exact ⟨hc10.1, fun _ => hc10.2⟩
        | none =>
          have hc10 := c10_fallback raw tm hraw rest hart hara (Or.inl hrom)
          exact ⟨hc10.1, fun _ => hc10.2⟩
